import Mathlib

/-!
# MIDIMonster routing core (`midimonster.c`)

A shallow embedding of the routing core: the channel mapping table
(`mappings`, `map`), the managed descriptor registry (`fds`, `fd`), the two
event collections (`event_pool`, `primary`) and the functions
`mm_map_channel`, `map_free`, `mm_manage_fd`, `fds_free`, `mm_channel_event`
and `main` with its event loop and drain loop.

Conventions of the embedding.

* Pointers to objects the core never dereferences (`channel*`, `backend*`,
  `void* impl`) are addresses, natural numbers; `NULL` is `none` where the
  code stores or tests it.
* A heap block is the list of its cells; the `NULL` block is `[]`.  The
  element counters the code keeps next to a block (`mappings`, `fds`,
  `alloc`, `n`) are separate fields, as in the source, so that a state in
  which counter and block disagree can be written down.
* `size_t` counters are natural numbers: a counter never exceeds the number
  of cells of a block that exists in memory.
* Every `realloc` may fail; its outcome is a Boolean argument of the function
  that calls it (`true`: the block is resized, `false`: `NULL` is returned).
* Reading or writing a cell outside its block is undefined behaviour; the
  functions return `none` there.
* The collaborators of the core (`backend_match`, `config_read`,
  `backends_handle`, `backends_notify`, `select`, ...) and the value of
  `shutdown_requested` at each test of the loop condition are parameters.
-/

namespace Midimonster

/-- A `channel*`; the core compares channel addresses and never looks behind them. -/
abbrev channel := Nat

/-- Modelled from the spec: `channel_value` is declared in `midimonster.h`,
which is not part of the sources at hand; the core only copies values, so a
value is an opaque integer here. -/
abbrev channel_value := Int

/-- A non-`NULL` `backend*` as returned by `backend_match`. -/
abbrev backend := Nat

/-- The struct `channel_mapping` of `midimonster.h` as used by the core.  The
fields are `from` and `to` in the source; `destinations` is the length of
`to_`, and the pair `to == NULL`, `destinations == 0` is the empty list. -/
structure channel_mapping where
  from_ : channel
  to_ : List channel
deriving DecidableEq, Repr

/-- The struct `managed_fd`: descriptor, owning backend and backend-private pointer. -/
structure managed_fd where
  fd : Int
  backend : Option backend
  impl : Option Nat
deriving DecidableEq, Repr

/-- The struct `event_collection`: `alloc` cells are allocated in each of the
two arrays, the first `n` of them hold pending events. -/
structure event_collection where
  alloc : Nat
  n : Nat
  channel : List channel
  value : List channel_value
deriving DecidableEq, Repr

/-- The file-scope variables of `midimonster.c`.  `primary` is the index into
`event_pool` the pointer `primary` refers to. -/
structure core where
  mappings : Nat
  map : List channel_mapping
  fds : Nat
  fd : List managed_fd
  event_pool0 : event_collection
  event_pool1 : event_collection
  primary : Fin 2
deriving DecidableEq, Repr

/-- The initial values of the file-scope variables. -/
def core.init : core :=
  { mappings := 0, map := [], fds := 0, fd := [],
    event_pool0 := ⟨0, 0, [], []⟩, event_pool1 := ⟨0, 0, [], []⟩, primary := 0 }

/-- A successful `realloc(block, count * sizeof(cell))`: the first `count`
cells are kept, cells beyond the old block are indeterminate (`fill`). -/
def realloc {α : Type} (fill : α) (block : List α) (count : Nat) : List α :=
  block.take count ++ List.replicate (count - block.length) fill

/-- A loop `for(u = start; u < count; u++){ if(test(block[u])) break; }` with
`steps` iterations left: the index at which it stops, `count` itself when no
cell passes the test. -/
def scan {α : Type} (test : α → Bool) (block : List α) : Nat → Nat → Option Nat
  | 0, u => some u
  | steps + 1, u =>
    match block[u]? with
    | none => none
    | some e => if test e then some u else scan test block steps (u + 1)

/-! ### Channel mapping table -/

/-- The loops at lines 38-42 and 151-155: the index of the first entry whose
`from` is `c`, or `mappings`. -/
def find_source (s : core) (c : channel) : Option Nat :=
  scan (fun e => decide (e.from_ = c)) s.map s.mappings 0

/-- Lines 56-72 of `mm_map_channel`, for the entry at index `u`. -/
def map_destination (ok_to : Bool) (to_ : channel) (u : Nat) (s : core) : Option (Int × core) :=
  match s.map[u]? with
  | none => none
  | some e =>
    -- check whether the target is already mapped
    if to_ ∈ e.to_ then some (0, s)
    else if ok_to then
      some (0, { s with map := s.map.set u { e with to_ := e.to_ ++ [to_] } })
    else
      some (1, { s with map := s.map.set u { e with to_ := [] } })

/-- The function `mm_map_channel(from, to)`.  `ok_map` and `ok_to` are the
outcomes of the `realloc` of `map` (line 46) and of `map[u].to` (line 63). -/
def mm_map_channel (ok_map ok_to : Bool) (from_ to_ : channel) (s : core) : Option (Int × core) :=
  -- find existing source mapping
  match find_source s from_ with
  | none => none
  | some u =>
    -- create new entry
    if u = s.mappings then
      if ok_map then
        let block := (realloc ⟨0, []⟩ s.map (s.mappings + 1)).set s.mappings ⟨0, []⟩
        match block[u]? with
        | none => none
        | some e =>
          map_destination ok_to to_ u
            { s with map := block.set u { e with from_ := from_ }, mappings := s.mappings + 1 }
      else some (1, { s with map := [] })
    else map_destination ok_to to_ u s

/-- The destination list `map[u].to` that `mm_channel_event` uses for channel
`c`: that of the first entry whose `from` is `c`, empty when there is none. -/
def lookup (map : List channel_mapping) (c : channel) : List channel :=
  match map.find? (fun e => decide (e.from_ = c)) with
  | none => []
  | some e => e.to_

/-- The counter `mappings` is the number of cells of the block `map`. -/
def map_wf (s : core) : Prop := s.mappings = s.map.length

instance (s : core) : Decidable (map_wf s) := by unfold map_wf; infer_instance

/-- The invariant of the mapping table: at most one entry per source channel,
and no destination list with a duplicate. -/
def map_inv (s : core) : Prop :=
  (s.map.map (fun e => e.from_)).Nodup ∧ ∀ e ∈ s.map, e.to_.Nodup

instance (s : core) : Decidable (map_inv s) := by unfold map_inv; infer_instance

/-! ### Descriptor registry -/

/-- The slot contents written at lines 98-100. -/
def unused_slot : managed_fd := ⟨-1, none, none⟩

/-- The test of line 96. -/
def is_match (new_fd : Int) (b : backend) (e : managed_fd) : Bool :=
  decide (e.fd = new_fd) && decide (e.backend = some b)

/-- The test of line 112. -/
def is_free (e : managed_fd) : Bool := decide (e.fd < 0)

/-- The function `mm_manage_fd(new_fd, back, manage, impl)`.  The collaborator
`backend_match` is a parameter (`none` is `NULL`); `ok_fd` is the outcome of
the `realloc` of line 118. -/
def mm_manage_fd (backend_match : String → Option backend) (ok_fd : Bool)
    (new_fd : Int) (back : String) (manage : Int) (impl : Option Nat) (s : core) :
    Option (Int × core) :=
  match backend_match back with
  | none => some (1, s)
  | some b =>
    -- find exact match
    match scan (is_match new_fd b) s.fd s.fds 0 with
    | none => none
    | some u =>
      if u < s.fds then
        if manage = 0 then some (0, { s with fd := s.fd.set u unused_slot })
        else some (0, s)
      else if manage = 0 then some (0, s)
      else
        -- find free slot
        match scan is_free s.fd s.fds 0 with
        | none => none
        | some u =>
          -- if necessary expand
          if u = s.fds then
            if ok_fd then
              let block := realloc unused_slot s.fd (s.fds + 1)
              if u < block.length then
                some (0, { s with fd := block.set u ⟨new_fd, some b, impl⟩, fds := s.fds + 1 })
              else none
            else some (1, { s with fd := [] })
          else
            -- store new fd
            some (0, { s with fd := s.fd.set u ⟨new_fd, some b, impl⟩ })

/-- The counter `fds` is the number of cells of the block `fd`. -/
def fd_wf (s : core) : Prop := s.fds = s.fd.length

instance (s : core) : Decidable (fd_wf s) := by unfold fd_wf; infer_instance

/-- Two slots do not hold the same descriptor and backend, unless the
descriptor is the unused value -1. -/
def distinct_slots (x y : managed_fd) : Prop :=
  x.fd ≠ -1 → ¬ (x.fd = y.fd ∧ x.backend = y.backend)

instance (x y : managed_fd) : Decidable (distinct_slots x y) := by
  unfold distinct_slots; infer_instance

/-- The invariant of the registry: two different slots whose descriptor is
not the unused value -1 never hold the same descriptor and backend. -/
def fd_inv (s : core) : Prop := s.fd.Pairwise distinct_slots

instance (s : core) : Decidable (fd_inv s) := by unfold fd_inv; infer_instance

/-! ### Event collections -/

/-- The collection `event_pool[i]`. -/
def core.pool (s : core) (i : Fin 2) : event_collection :=
  if i = 0 then s.event_pool0 else s.event_pool1

/-- Assignment to `event_pool[i]`. -/
def core.set_pool (s : core) (i : Fin 2) (c : event_collection) : core :=
  if i = 0 then { s with event_pool0 := c } else { s with event_pool1 := c }

/-- The index of the collection that `primary` does not point to. -/
def core.standby (s : core) : Fin 2 := if s.primary = 0 then 1 else 0

/-- The pending events of a collection: its first `n` cells. -/
def events (c : event_collection) : List (channel × channel_value) :=
  (c.channel.take c.n).zip (c.value.take c.n)

/-- The loop at lines 179-182: `channel[n + p] = to[p]; value[n + p] = v` for
the destinations from index `p` on. -/
def enqueue (v : channel_value) : List channel → Nat → event_collection → Option event_collection
  | [], _, c => some c
  | d :: ds, p, c =>
    if c.n + p < c.channel.length ∧ c.n + p < c.value.length then
      enqueue v ds (p + 1)
        { c with channel := c.channel.set (c.n + p) d, value := c.value.set (c.n + p) v }
    else none

/-- Lines 177-185 of `mm_channel_event` on the collection `c`. -/
def enqueue_all (v : channel_value) (to_ : List channel) (s : core) (c : event_collection) :
    Option (Int × core) :=
  match enqueue v to_ 0 c with
  | none => none
  | some c1 => some (0, s.set_pool s.primary { c1 with n := c1.n + to_.length })

/-- The function `mm_channel_event(c, v)`.  `ok_channel` and `ok_value` are the
outcomes of the two calls of `realloc` at lines 164 and 165. -/
def mm_channel_event (ok_channel ok_value : Bool) (c : channel) (v : channel_value) (s : core) :
    Option (Int × core) :=
  -- find mapped channels
  match find_source s c with
  | none => none
  | some u =>
    if u = s.mappings then some (0, s)
    else
      match s.map[u]? with
      | none => none
      | some e =>
        let p := s.pool s.primary
        -- resize event structures to fit additional events
        if p.n + e.to_.length ≥ p.alloc then
          let channel := if ok_channel then realloc 0 p.channel (p.alloc + e.to_.length) else []
          let value := if ok_value then realloc 0 p.value (p.alloc + e.to_.length) else []
          if ok_channel = false ∨ ok_value = false then
            some (1, s.set_pool s.primary { alloc := 0, n := 0, channel := channel, value := value })
          else
            enqueue_all v e.to_ s
              { p with alloc := p.alloc + e.to_.length, channel := channel, value := value }
        else enqueue_all v e.to_ s p

/-- A collection is well formed when its `alloc` cells exist in both arrays
and `n` does not exceed `alloc`. -/
def collection_wf (c : event_collection) : Prop :=
  c.n ≤ c.alloc ∧ c.alloc ≤ c.channel.length ∧ c.alloc ≤ c.value.length

instance (c : event_collection) : Decidable (collection_wf c) := by
  unfold collection_wf; infer_instance

/-! ### The drain loop of `main` (lines 287-306) -/

/-- A batch as `backends_notify` receives it. -/
abbrev batch := List (channel × channel_value)

/-- The collaborator `backends_notify(n, channel, value)` as a parameter: its
arguments are the number of the call within the drain (standing for whatever
state the backends keep), the index of the collection whose arrays it is
handed and the count `n`; it returns its status and the state it leaves. -/
abbrev notify_fn := Nat → Fin 2 → Nat → core → Option (Int × core)

/-- How the drain loop is left. -/
inductive drain_exit where
  | quiescent
  | failed
  | undefined
  | unfinished
deriving DecidableEq, Repr

/-- The loop at lines 290-296: `primary` moves to the other collection. -/
def swap_collectors (s : core) : core :=
  if s.primary ≠ 0 then { s with primary := 0 } else { s with primary := 1 }

/-- The loop `while(primary->n)` of lines 287-306, run for at most `fuel`
rounds.  `call` numbers the calls of `backends_notify`, `trace` collects the
batches handed to it.  The result `quiescent` is the normal end of the loop,
`failed` the `goto bail` of line 301. -/
def drain (notify : notify_fn) : Nat → Nat → core → List batch → drain_exit × core × List batch
  | 0, _, s, trace =>
    if (s.pool s.primary).n = 0 then (.quiescent, s, trace) else (.unfinished, s, trace)
  | fuel + 1, call, s, trace =>
    if (s.pool s.primary).n = 0 then (.quiescent, s, trace)
    else
      -- swap primary and secondary event collectors
      let secondary := s.primary
      let s1 := swap_collectors s
      -- push collected events to target backends
      if (s1.pool secondary).n ≠ 0 then
        match notify call secondary (s1.pool secondary).n s1 with
        | none => (.undefined, s1, trace ++ [events (s1.pool secondary)])
        | some (rv, s2) =>
          if rv ≠ 0 then (.failed, s2, trace ++ [events (s1.pool secondary)])
          else
            -- reset the event count
            drain notify fuel (call + 1)
              (s2.set_pool secondary { s2.pool secondary with n := 0 })
              (trace ++ [events (s1.pool secondary)])
      else
        drain notify fuel call (s1.set_pool secondary { s1.pool secondary with n := 0 }) trace

/-- A sequence of calls `mm_channel_event(c, v)`, one per listed event, that
stops at the first call that fails; `ok i` gives the allocator outcomes of call `i`. -/
def raise_events (ok : Nat → Bool × Bool) : batch → Nat → core → Option (Int × core)
  | [], _, s => some (0, s)
  | (c, v) :: es, i, s =>
    match mm_channel_event (ok i).1 (ok i).2 c v s with
    | none => none
    | some (rv, s1) => if rv ≠ 0 then some (rv, s1) else raise_events ok es (i + 1) s1

/-- A `backends_notify` that walks the arrays it is handed and raises each
delivered pair `(channel[i], value[i])` again through `mm_channel_event`,
and does nothing else; it fails when a call of `mm_channel_event` fails. -/
def reraise (ok : Nat → Bool × Bool) (secondary : Fin 2) : Nat → Nat → core → Option (Int × core)
  | 0, _, s => some (0, s)
  | left + 1, i, s =>
    match (s.pool secondary).channel[i]?, (s.pool secondary).value[i]? with
    | some c, some v =>
      match mm_channel_event (ok i).1 (ok i).2 c v s with
      | none => none
      | some (rv, s1) => if rv ≠ 0 then some (rv, s1) else reraise ok secondary left (i + 1) s1
    | _, _ => none

/-- The collaborator `backends_notify` of the cascade model; `ok call i` gives
the allocator outcomes for the `i`-th event of call number `call`. -/
def notify_reraise (ok : Nat → Nat → Bool × Bool) : notify_fn :=
  fun call secondary n s => reraise (ok call) secondary n 0 s

/-! ### The mapping graph -/

/-- An edge of the mapping graph: an event on `c` enqueues an event on `d`. -/
def edge (map : List channel_mapping) (c d : channel) : Prop := d ∈ lookup map c

instance (map : List channel_mapping) (c d : channel) : Decidable (edge map c d) :=
  inferInstanceAs (Decidable (d ∈ lookup map c))

/-- A path of the mapping graph, as the list of the channels it visits. -/
def is_path (map : List channel_mapping) (p : List channel) : Prop := List.Chain' (edge map) p

instance (map : List channel_mapping) (p : List channel) : Decidable (is_path map p) :=
  inferInstanceAs (Decidable (List.Chain' (edge map) p))

/-- The mapping graph is acyclic: no path visits a channel twice. -/
def acyclic (map : List channel_mapping) : Prop := ∀ p, is_path map p → p.Nodup

/-- The number `L` is the longest path length of the mapping graph, counted in
edges: some path has `L` edges and none has more. -/
def longest_path (map : List channel_mapping) (L : Nat) : Prop :=
  (∃ p, is_path map p ∧ p.length = L + 1) ∧ ∀ p, is_path map p → p.length ≤ L + 1

/-- Every path that starts at channel `c` has at most `m` edges. -/
def paths_from_le (map : List channel_mapping) (m : Nat) (c : channel) : Prop :=
  ∀ p, is_path map (c :: p) → p.length ≤ m

/-! ### Teardown of the table and of the registry -/

/-- The loop of `map_free` (lines 77-79): `free(map[u].to)` for every entry;
the result lists the blocks that are freed. -/
def map_free_loop (map : List channel_mapping) : Nat → Nat → Option (List (List channel))
  | 0, _ => some []
  | steps + 1, u =>
    match map[u]? with
    | none => none
    | some e =>
      match map_free_loop map steps (u + 1) with
      | none => none
      | some freed => some (e.to_ :: freed)

/-- The function `map_free`. -/
def map_free (s : core) : Option core :=
  match map_free_loop s.map s.mappings 0 with
  | none => none
  | some _ => some { s with mappings := 0, map := [] }

/-- The loop of `fds_free` (lines 135-141): every slot with a descriptor that
is not negative is closed and marked -1; the result lists the descriptors
handed to `close`, in the order of the calls, and the block as it is left. -/
def fds_free_loop : List managed_fd → Nat → Nat → Option (List Int × List managed_fd)
  | fd, 0, _ => some ([], fd)
  | fd, steps + 1, u =>
    match fd[u]? with
    | none => none
    | some e =>
      if e.fd ≥ 0 then
        match fds_free_loop (fd.set u { e with fd := -1 }) steps (u + 1) with
        | none => none
        | some (closed, block) => some (e.fd :: closed, block)
      else fds_free_loop fd steps (u + 1)

/-- The function `fds_free`: the descriptors it closes and the state it leaves. -/
def fds_free (s : core) : Option (List Int × core) :=
  match fds_free_loop s.fd s.fds 0 with
  | none => none
  | some (closed, _) => some (closed, { s with fds := 0, fd := [] })

/-! ### The function `main` -/

/-- The teardown calls of `main`. -/
inductive teardown_call where
  | backends_stop
  | channels_free
  | instances_free
  | map_free
  | fds_free
  | event_free
  | plugins_close
deriving DecidableEq, Repr

/-- The collaborators of `main` and the events of one run, as parameters:
the status of `plugins_load`; `config_read` and `backends_start` with the
state they leave (they call `mm_map_channel` and `mm_manage_fd`); whether the
`calloc` of line 244 succeeds; the value of `shutdown_requested` at the `k`-th
test of the loop condition of line 261; the value `select` returns in
iteration `k`; `backends_handle` and `backends_notify` of iteration `k`. -/
structure collaborators where
  plugins_load : Int
  config_read : core → Option (Int × core)
  backends_start : core → Option (Int × core)
  calloc_ok : Bool
  shutdown_requested : Nat → Bool
  select : Nat → Int
  backends_handle : Nat → core → Option (Int × core)
  backends_notify : Nat → notify_fn

/-- How the event loop of lines 261-307 is left. -/
inductive loop_exit where
  | shutdown
  | wait_error
  | handle_failed
  | notify_failed
  | undefined
  | unfinished
deriving DecidableEq, Repr

/-- The loop `while(!shutdown_requested)` of lines 261-307, for at most `fuel`
iterations, each drain for at most `drain_fuel` rounds; `k` numbers the
iterations.  The descriptor sets of lines 263 and 271-278 only select the
arguments of `backends_handle`, which is a parameter. -/
def event_loop (env : collaborators) (drain_fuel : Nat) : Nat → Nat → core → loop_exit × core
  | 0, k, s => if env.shutdown_requested k then (.shutdown, s) else (.unfinished, s)
  | fuel + 1, k, s =>
    if env.shutdown_requested k then (.shutdown, s)
    -- wait for & translate events
    else if env.select k < 0 then (.wait_error, s)
    else
      -- run backend processing, collect events
      match env.backends_handle k s with
      | none => (.undefined, s)
      | some (rv, s1) =>
        if rv ≠ 0 then (.handle_failed, s1)
        else
          match drain (env.backends_notify k) drain_fuel 0 s1 [] with
          | (.quiescent, s2, _) => event_loop env drain_fuel fuel (k + 1) s2
          | (.failed, s2, _) => (.notify_failed, s2)
          | (.undefined, s2, _) => (.undefined, s2)
          | (.unfinished, s2, _) => (.unfinished, s2)

/-- The value of `EXIT_SUCCESS`. -/
def EXIT_SUCCESS : Int := 0

/-- The value of `EXIT_FAILURE`. -/
def EXIT_FAILURE : Int := 1

/-- The teardown calls after the label `bail` (lines 313-319). -/
def bail : List teardown_call :=
  [.backends_stop, .channels_free, .instances_free, .map_free, .fds_free, .event_free,
    .plugins_close]

/-- The teardown calls of the configuration failure path (lines 226-231). -/
def config_failure_teardown : List teardown_call :=
  [.backends_stop, .channels_free, .instances_free, .map_free, .fds_free, .plugins_close]

/-- The end of a run of `main`. -/
inductive run_result where
  | exited (rv : Int) (teardown : List teardown_call)
  | undefined
  | unfinished
deriving DecidableEq, Repr

/-- The function `main`: its exit status and the teardown calls it makes, in order. -/
def main (env : collaborators) (fuel drain_fuel : Nat) : run_result :=
  -- initialize backends
  if env.plugins_load ≠ 0 then .exited EXIT_FAILURE bail
  else
    -- read config
    match env.config_read core.init with
    | none => .undefined
    | some (rv, s1) =>
      if rv ≠ 0 then .exited EXIT_FAILURE config_failure_teardown
      else
        -- start backends
        match env.backends_start s1 with
        | none => .undefined
        | some (rv, s2) =>
          if rv ≠ 0 then .exited EXIT_FAILURE bail
          -- allocate data buffers
          else if env.calloc_ok = false then .exited EXIT_FAILURE bail
          else
            -- process events
            match event_loop env drain_fuel fuel 0 s2 with
            | (.shutdown, _) => .exited EXIT_SUCCESS bail
            | (.wait_error, _) => .exited EXIT_SUCCESS bail
            | (.handle_failed, _) => .exited EXIT_FAILURE bail
            | (.notify_failed, _) => .exited EXIT_FAILURE bail
            | (.undefined, _) => .undefined
            | (.unfinished, _) => .unfinished

/-- A run in which start-up succeeds and `select` reports an error in the
first iteration of the event loop. -/
def wait_error_run : collaborators :=
  { plugins_load := 0
    config_read := fun s => some (0, s)
    backends_start := fun s => some (0, s)
    calloc_ok := true
    shutdown_requested := fun _ => false
    select := fun _ => -1
    backends_handle := fun _ s => some (0, s)
    backends_notify := fun _ _ _ _ s => some (0, s) }

/-- A run in which `config_read` fails. -/
def config_failure_run : collaborators :=
  { plugins_load := 0
    config_read := fun s => some (1, s)
    backends_start := fun s => some (0, s)
    calloc_ok := true
    shutdown_requested := fun _ => false
    select := fun _ => 0
    backends_handle := fun _ s => some (0, s)
    backends_notify := fun _ _ _ _ s => some (0, s) }

/-- A registry in which the backends 1 and 2 both manage descriptor 3. -/
def shared_descriptor : core :=
  { core.init with fds := 2, fd := [⟨3, some 1, none⟩, ⟨3, some 2, none⟩] }

/-- A state in which channel 1 is mapped to channel 2 and the primary
collection is full, with `alloc` cells. -/
def full_collection (alloc : Nat) : core :=
  { core.init with
    mappings := 1, map := [⟨1, [2]⟩],
    event_pool0 := ⟨alloc, alloc, List.replicate alloc 9, List.replicate alloc 0⟩ }

/-- The frame of a collaborator that reaches the event collections only
through `mm_channel_event`: it does not move `primary` and leaves the
collection that is not the primary one as it is. -/
def writes_primary_only (f : core → Option (Int × core)) : Prop :=
  ∀ s rv s1, f s = some (rv, s1) → s1.primary = s.primary ∧ s1.pool s.standby = s.pool s.standby

/-- A `backends_notify` that raises an event on channel 1 in every call. -/
def raising_notify : notify_fn :=
  fun _ _ _ s => raise_events (fun _ => (true, true)) [(1, 5)] 0 s

/-- A run in which `backends_handle` raises an event on channel 1 in the first
iteration, the cascade model delivers it, and the shutdown flag is found set
at the second test of the loop condition. -/
def shutdown_run : collaborators :=
  { plugins_load := 0
    config_read := fun s => mm_map_channel true true 1 2 s
    backends_start := fun s => some (0, s)
    calloc_ok := true
    shutdown_requested := fun k => decide (1 ≤ k)
    select := fun _ => 1
    backends_handle := fun _ s => raise_events (fun _ => (true, true)) [(1, 5)] 0 s
    backends_notify := fun _ _ _ _ s => raise_events (fun _ => (true, true)) [] 0 s }

/-- The state `mm_channel_event(1, 5)` leaves when the table maps channel 1 to
channel 2 and no event is pending: the event `(2, 5)` is pending in the
primary collection. -/
def enqueued_example : core :=
  { core.init with mappings := 1, map := [⟨1, [2]⟩], event_pool0 := ⟨1, 1, [2], [5]⟩ }

/-- A state for the cascade: the table maps channel 1 to channel 2, and the
event `(1, 5)` is pending in the primary collection. -/
def cascade_example : core :=
  { core.init with mappings := 1, map := [⟨1, [2]⟩], event_pool0 := ⟨1, 1, [1], [5]⟩ }

/-! ## The mapping table: what `mm_map_channel` computes -/

theorem scan_at {α : Type} (test : α → Bool) (rest : List α) :
    ∀ pre : List α,
      scan test (pre ++ rest) rest.length pre.length
        = some (pre.length + rest.findIdx test) := by
  induction rest with
  | nil => intro pre; simp [scan]
  | cons x xs ih =>
    intro pre
    have hx : (pre ++ x :: xs)[pre.length]? = some x := by
      rw [List.getElem?_append_right (Nat.le_refl _)]; simp
    simp only [List.length_cons, scan, hx]
    by_cases h : test x = true
    · simp [h, List.findIdx_cons]
    · have := ih (pre ++ [x])
      simp only [List.append_assoc, List.singleton_append, List.length_append,
        List.length_singleton] at this
      simp [h, List.findIdx_cons, this]
      omega

theorem findIdx_none {α : Type} (test : α → Bool) (l : List α)
    (h : ∀ x ∈ l, test x = false) : l.findIdx test = l.length := by
  by_contra hne
  have hlt : l.findIdx test < l.length := by
    have hle : l.findIdx test ≤ l.length := List.findIdx_le_length test
    omega
  have h1 := List.findIdx_getElem (w := hlt)
  rw [h _ (List.getElem_mem _)] at h1
  exact Bool.false_ne_true h1

theorem scan_found {α : Type} (test : α → Bool) (pre post : List α) (e : α)
    (hpre : ∀ x ∈ pre, test x = false) (he : test e = true) :
    scan test (pre ++ e :: post) (pre ++ e :: post).length 0 = some pre.length := by
  have h := scan_at test (pre ++ e :: post) []
  simp only [List.nil_append, List.length_nil, Nat.zero_add] at h
  rw [h]
  congr 1
  rw [List.findIdx_append]
  have : ¬ (List.findIdx test pre < pre.length) := by
    rw [findIdx_none test pre hpre]; omega
  simp [this, List.findIdx_cons, he]

theorem scan_absent {α : Type} (test : α → Bool) (l : List α)
    (h : ∀ x ∈ l, test x = false) :
    scan test l l.length 0 = some l.length := by
  have h0 := scan_at test l []
  simp only [List.nil_append, List.length_nil, Nat.zero_add] at h0
  rw [h0, findIdx_none test l h]

/-- Either no cell passes the test, or the block splits at the first cell that does. -/
theorem split_first {α : Type} (test : α → Bool) (l : List α) :
    (∀ x ∈ l, test x = false) ∨
    ∃ pre e post, l = pre ++ e :: post ∧ (∀ x ∈ pre, test x = false) ∧ test e = true := by
  induction l with
  | nil => left; simp
  | cons x xs ih =>
    by_cases hx : test x = true
    · right; exact ⟨[], x, xs, rfl, by simp, hx⟩
    · have hx : test x = false := by simpa using hx
      rcases ih with h | ⟨pre, e, post, hl, hpre, he⟩
      · left
        intro y hy
        rcases List.mem_cons.1 hy with rfl | hy
        · exact hx
        · exact h y hy
      · right
        refine ⟨x :: pre, e, post, by simp [hl], ?_, he⟩
        intro y hy
        rcases List.mem_cons.1 hy with rfl | hy
        · exact hx
        · exact hpre y hy

/-- The split of the mapping table at the first entry for channel `c`. -/
theorem split_source (c : channel) (l : List channel_mapping) :
    (∀ x ∈ l, x.from_ ≠ c) ∨
    ∃ pre e post, l = pre ++ e :: post ∧ (∀ x ∈ pre, x.from_ ≠ c) ∧ e.from_ = c := by
  rcases split_first (fun e : channel_mapping => decide (e.from_ = c)) l with
    h | ⟨pre, e, post, hl, hpre, he⟩
  · left; intro x hx; simpa using h x hx
  · right
    exact ⟨pre, e, post, hl, fun x hx => by simpa using hpre x hx, by simpa using he⟩

theorem find_source_found (c : channel) (s : core) (pre post : List channel_mapping)
    (e : channel_mapping) (hwf : map_wf s) (hmap : s.map = pre ++ e :: post)
    (hpre : ∀ x ∈ pre, x.from_ ≠ c) (he : e.from_ = c) :
    find_source s c = some pre.length := by
  unfold find_source
  unfold map_wf at hwf
  rw [hwf, hmap]
  exact scan_found _ pre post e (fun x hx => by simpa using hpre x hx) (by simpa using he)

theorem find_source_absent (c : channel) (s : core) (hwf : map_wf s)
    (h : ∀ x ∈ s.map, x.from_ ≠ c) :
    find_source s c = some s.mappings := by
  unfold find_source
  unfold map_wf at hwf
  rw [hwf]
  exact scan_absent _ s.map (fun x hx => by simpa using h x hx)

theorem set_split {α : Type} (pre post : List α) (e e' : α) :
    (pre ++ e :: post).set pre.length e' = pre ++ e' :: post := by
  induction pre with
  | nil => rfl
  | cons x xs ih => simp [List.set, ih]

theorem getElem?_split {α : Type} (pre post : List α) (e : α) :
    (pre ++ e :: post)[pre.length]? = some e := by
  rw [List.getElem?_append_right (Nat.le_refl _)]; simp

/-- The outcome of `mm_map_channel` when the first entry for `from_` is `e`. -/
theorem mm_map_channel_found (ok_map ok_to : Bool) (from_ to_ : channel) (s : core)
    (pre post : List channel_mapping) (e : channel_mapping)
    (hwf : map_wf s) (hmap : s.map = pre ++ e :: post)
    (hpre : ∀ x ∈ pre, x.from_ ≠ from_) (he : e.from_ = from_) :
    mm_map_channel ok_map ok_to from_ to_ s =
      if to_ ∈ e.to_ then some (0, s)
      else if ok_to then
        some (0, { s with map := pre ++ { e with to_ := e.to_ ++ [to_] } :: post })
      else some (1, { s with map := pre ++ { e with to_ := [] } :: post }) := by
  unfold map_wf at hwf
  have hfind : find_source s from_ = some pre.length :=
    find_source_found from_ s pre post e hwf hmap hpre he
  have hne : pre.length ≠ s.mappings := by
    rw [hwf, hmap]; simp
  have hget : s.map[pre.length]? = some e := by rw [hmap]; exact getElem?_split pre post e
  simp only [mm_map_channel, hfind, hne, if_false, map_destination, hget]
  simp only [hmap, set_split]

/-- The outcome of `mm_map_channel` when no entry has source `from_`. -/
theorem mm_map_channel_absent (ok_map ok_to : Bool) (from_ to_ : channel) (s : core)
    (hwf : map_wf s) (habs : ∀ x ∈ s.map, x.from_ ≠ from_) :
    mm_map_channel ok_map ok_to from_ to_ s =
      if ok_map then
        if ok_to then
          some (0, { s with map := s.map ++ [⟨from_, [to_]⟩], mappings := s.mappings + 1 })
        else some (1, { s with map := s.map ++ [⟨from_, []⟩], mappings := s.mappings + 1 })
      else some (1, { s with map := [] }) := by
  unfold map_wf at hwf
  have hfind : find_source s from_ = some s.mappings :=
    find_source_absent from_ s hwf habs
  have hblock : (realloc (⟨0, []⟩ : channel_mapping) s.map (s.mappings + 1))
      = s.map ++ [⟨0, []⟩] := by
    simp [realloc, hwf]
  have hlen : s.mappings = (s.map).length := hwf
  simp only [mm_map_channel, hfind, if_true, hblock]
  cases ok_map with
  | false => simp
  | true =>
    simp only [if_true]
    have h1 : (s.map ++ [(⟨0, []⟩ : channel_mapping)]).set s.mappings ⟨0, []⟩
        = s.map ++ [⟨0, []⟩] := by
      rw [hlen]; exact set_split s.map [] _ _
    have h2 : (s.map ++ [(⟨0, []⟩ : channel_mapping)])[s.mappings]? = some ⟨0, []⟩ := by
      rw [hlen]; exact getElem?_split s.map [] _
    have h3 : ∀ x : channel_mapping, (s.map ++ [(⟨0, []⟩ : channel_mapping)]).set s.mappings x
        = s.map ++ [x] := by
      intro x; rw [hlen]; exact set_split s.map [] _ _
    have h4 : ∀ x : channel_mapping, (s.map ++ [x])[s.mappings]? = some x := by
      intro x; rw [hlen]; exact getElem?_split s.map [] _
    have h5 : ∀ x y : channel_mapping, (s.map ++ [x]).set s.mappings y = s.map ++ [y] := by
      intro x y; rw [hlen]; exact set_split s.map [] _ _
    simp only [h1, h2, h3, map_destination, h4]
    cases ok_to <;> simp [h5]

theorem lookup_absent (map : List channel_mapping) (c : channel)
    (h : ∀ x ∈ map, x.from_ ≠ c) :
    lookup map c = [] := by
  have : map.find? (fun e => decide (e.from_ = c)) = none := by
    rw [List.find?_eq_none]
    intro x hx
    simpa using h x hx
  simp [lookup, this]

theorem lookup_found (map : List channel_mapping) (c : channel)
    (pre post : List channel_mapping)
    (e : channel_mapping) (hmap : map = pre ++ e :: post)
    (hpre : ∀ x ∈ pre, x.from_ ≠ c) (he : e.from_ = c) :
    lookup map c = e.to_ := by
  have : map.find? (fun e => decide (e.from_ = c)) = some e := by
    rw [hmap, List.find?_append]
    have hnone : pre.find? (fun e => decide (e.from_ = c)) = none := by
      rw [List.find?_eq_none]
      intro x hx
      simpa using hpre x hx
    simp [hnone, List.find?_cons, he]
  simp [lookup, this]

/-- C1: `mm_map_channel` is idempotent.  When a call `mm_map_channel(a, b)`
succeeds and leaves the state `s1`, a second call returns 0 and leaves `s1`
again, whatever the allocator would answer; and when the table had no entry
for `a`, the entries for `a` are then the single entry with destination list `[b]`. -/
theorem mm_map_channel_idempotent (ok_map ok_to ok_map2 ok_to2 : Bool) (a b : channel)
    (s s1 : core) (hwf : map_wf s)
    (h1 : mm_map_channel ok_map ok_to a b s = some (0, s1)) :
    mm_map_channel ok_map2 ok_to2 a b s1 = some (0, s1) ∧
    ((∀ x ∈ s.map, x.from_ ≠ a) →
      s1.map.filter (fun e => decide (e.from_ = a)) = [⟨a, [b]⟩] ∧ lookup s1.map a = [b]) := by
  rcases split_source a s.map with habs | ⟨pre, e, post, hmap, hpre, he⟩
  · rw [mm_map_channel_absent ok_map ok_to a b s hwf habs] at h1
    cases ok_map <;> cases ok_to <;> simp at h1
    subst h1
    have hwf1 : map_wf { s with map := s.map ++ [⟨a, [b]⟩], mappings := s.mappings + 1 } := by
      unfold map_wf at *; simp [hwf]
    refine ⟨?_, fun _ => ⟨?_, ?_⟩⟩
    · rw [mm_map_channel_found ok_map2 ok_to2 a b _ s.map [] ⟨a, [b]⟩ hwf1 rfl habs rfl]
      simp
    · have : s.map.filter (fun e => decide (e.from_ = a)) = [] := by
        rw [List.filter_eq_nil_iff]
        intro x hx
        simpa using habs x hx
      simp [List.filter_append, this]
    · exact lookup_found _ a s.map [] ⟨a, [b]⟩ rfl habs rfl
  · refine ⟨?_, fun habs => ?_⟩
    · rw [mm_map_channel_found ok_map ok_to a b s pre post e hwf hmap hpre he] at h1
      by_cases hb : b ∈ e.to_
      · simp only [hb, if_true, Option.some.injEq, Prod.mk.injEq, true_and] at h1
        subst h1
        rw [mm_map_channel_found ok_map2 ok_to2 a b s pre post e hwf hmap hpre he]
        simp [hb]
      · cases ok_to <;> simp [hb] at h1
        subst h1
        have hwf1 : map_wf { s with map := pre ++ { e with to_ := e.to_ ++ [b] } :: post } := by
          unfold map_wf at *; simp [hwf, hmap]
        rw [mm_map_channel_found ok_map2 ok_to2 a b _ pre post { e with to_ := e.to_ ++ [b] }
          hwf1 rfl hpre he]
        simp
    · exact absurd he (habs e (by simp [hmap]))

/-- Mapping channel 1 to channel 3 in the initial, empty table, twice. -/
theorem mm_map_channel_idempotent_witness :
    mm_map_channel false false 1 3 { core.init with mappings := 1, map := [⟨1, [3]⟩] }
      = some (0, { core.init with mappings := 1, map := [⟨1, [3]⟩] }) ∧
    ({ core.init with mappings := 1, map := [⟨1, [3]⟩] } : core).map.filter
        (fun e => decide (e.from_ = 1)) = [⟨1, [3]⟩] ∧
    lookup ({ core.init with mappings := 1, map := [⟨1, [3]⟩] } : core).map 1 = [3] :=
  have h := mm_map_channel_idempotent true true false false 1 3 core.init
    { core.init with mappings := 1, map := [⟨1, [3]⟩] } (by decide) (by decide)
  ⟨h.1, h.2 (by decide)⟩

/-- C6: a successful `mm_map_channel(from, to)` preserves the invariant of the
mapping table (one entry per source, no duplicate destination), and every
entry of the old table is still there, under the same source, with its old
destinations as the leading part of its destination list. -/
theorem mm_map_channel_preserves_inv (ok_map ok_to : Bool) (from_ to_ : channel)
    (s s1 : core) (hwf : map_wf s) (hinv : map_inv s)
    (h1 : mm_map_channel ok_map ok_to from_ to_ s = some (0, s1)) :
    map_inv s1 ∧
    ∀ e ∈ s.map, ∃ e1 ∈ s1.map, e1.from_ = e.from_ ∧ e.to_ <+: e1.to_ := by
  rcases split_source from_ s.map with habs | ⟨pre, e, post, hmap, hpre, he⟩
  · rw [mm_map_channel_absent ok_map ok_to from_ to_ s hwf habs] at h1
    cases ok_map <;> cases ok_to <;> simp at h1
    subst h1
    refine ⟨⟨?_, ?_⟩, ?_⟩
    · simp only [List.map_append, List.map_cons, List.map_nil]
      rw [List.nodup_append]
      refine ⟨hinv.1, by simp, ?_⟩
      intro x hx hx2
      simp only [List.mem_singleton] at hx2
      subst hx2
      rcases List.mem_map.1 hx with ⟨y, hy, hyx⟩
      exact habs y hy hyx
    · intro x hx
      simp only [List.mem_append, List.mem_singleton] at hx
      rcases hx with hx | rfl
      · exact hinv.2 x hx
      · simp
    · intro x hx
      exact ⟨x, by simp [hx], rfl, List.prefix_refl _⟩
  · rw [mm_map_channel_found ok_map ok_to from_ to_ s pre post e hwf hmap hpre he] at h1
    by_cases hb : to_ ∈ e.to_
    · simp only [hb, if_true, Option.some.injEq, Prod.mk.injEq, true_and] at h1
      subst h1
      exact ⟨hinv, fun x hx => ⟨x, hx, rfl, List.prefix_refl _⟩⟩
    · cases ok_to <;> simp [hb] at h1
      subst h1
      have hfrom : (pre ++ ({ e with to_ := e.to_ ++ [to_] } : channel_mapping) :: post).map
          (fun e => e.from_) = s.map.map (fun e => e.from_) := by
        simp [hmap]
      refine ⟨⟨?_, ?_⟩, ?_⟩
      · show ((pre ++ ({ e with to_ := e.to_ ++ [to_] } : channel_mapping) :: post).map
          (fun e => e.from_)).Nodup
        rw [hfrom]; exact hinv.1
      · intro x hx
        simp only [List.mem_append, List.mem_cons] at hx
        have he_mem : e ∈ s.map := by simp [hmap]
        rcases hx with hx | rfl | hx
        · exact hinv.2 x (by simp [hmap, hx])
        · show (e.to_ ++ [to_]).Nodup
          rw [List.nodup_append]
          refine ⟨hinv.2 e he_mem, by simp, ?_⟩
          intro y hy hy2
          simp only [List.mem_singleton] at hy2
          subst hy2
          exact hb hy
        · exact hinv.2 x (by simp [hmap, hx])
      · intro x hx
        rw [hmap] at hx
        simp only [List.mem_append, List.mem_cons] at hx
        rcases hx with hx | rfl | hx
        · exact ⟨x, by simp [hx], rfl, List.prefix_refl _⟩
        · exact ⟨{ x with to_ := x.to_ ++ [to_] }, by simp, rfl, List.prefix_append _ _⟩
        · exact ⟨x, by simp [hx], rfl, List.prefix_refl _⟩

/-- Adding destination 4 to the entry of channel 1 in a table of two entries. -/
theorem mm_map_channel_preserves_inv_witness :
    map_inv { core.init with mappings := 2, map := [⟨1, [2, 4]⟩, ⟨5, [1]⟩] } ∧
    ∀ e ∈ ({ core.init with mappings := 2, map := [⟨1, [2]⟩, ⟨5, [1]⟩] } : core).map,
      ∃ e1 ∈ ({ core.init with mappings := 2, map := [⟨1, [2, 4]⟩, ⟨5, [1]⟩] } : core).map,
        e1.from_ = e.from_ ∧ e.to_ <+: e1.to_ :=
  mm_map_channel_preserves_inv false true 1 4
    { core.init with mappings := 2, map := [⟨1, [2]⟩, ⟨5, [1]⟩] }
    { core.init with mappings := 2, map := [⟨1, [2, 4]⟩, ⟨5, [1]⟩] }
    (by decide) (by decide) (by decide)


/-! ## The descriptor registry: what `mm_manage_fd` computes -/

/-- The outcome of `mm_manage_fd` when the first slot matching `(new_fd, b)` is `e`. -/
theorem mm_manage_fd_found (backend_match : String → Option backend) (ok_fd : Bool)
    (new_fd : Int) (back : String) (manage : Int) (impl : Option Nat) (s : core) (b : backend)
    (pre post : List managed_fd) (e : managed_fd)
    (hwf : fd_wf s) (hb : backend_match back = some b) (hfd : s.fd = pre ++ e :: post)
    (hpre : ∀ x ∈ pre, is_match new_fd b x = false) (he : is_match new_fd b e = true) :
    mm_manage_fd backend_match ok_fd new_fd back manage impl s =
      if manage = 0 then some (0, { s with fd := pre ++ unused_slot :: post })
      else some (0, s) := by
  unfold fd_wf at hwf
  have hscan : scan (is_match new_fd b) s.fd s.fds 0 = some pre.length := by
    rw [hwf, hfd]; exact scan_found _ pre post e hpre he
  have hlt : pre.length < s.fds := by rw [hwf, hfd]; simp
  simp only [mm_manage_fd, hb, hscan, hlt, if_true]
  simp only [hfd, set_split]

/-- The outcome of `mm_manage_fd` when no slot matches `(new_fd, b)`. -/
theorem mm_manage_fd_absent (backend_match : String → Option backend) (ok_fd : Bool)
    (new_fd : Int) (back : String) (manage : Int) (impl : Option Nat) (s : core) (b : backend)
    (hwf : fd_wf s) (hb : backend_match back = some b)
    (habs : ∀ x ∈ s.fd, is_match new_fd b x = false) :
    mm_manage_fd backend_match ok_fd new_fd back manage impl s =
      if manage = 0 then some ((0 : Int), s)
      else
        match scan is_free s.fd s.fds 0 with
        | none => none
        | some u =>
          if u = s.fds then
            if ok_fd then
              some (0, { s with fd := s.fd ++ [⟨new_fd, some b, impl⟩], fds := s.fds + 1 })
            else some (1, { s with fd := [] })
          else some (0, { s with fd := s.fd.set u ⟨new_fd, some b, impl⟩ }) := by
  unfold fd_wf at hwf
  have hscan : scan (is_match new_fd b) s.fd s.fds 0 = some s.fds := by
    rw [hwf]; exact scan_absent _ s.fd habs
  have hblock : realloc unused_slot s.fd (s.fds + 1) = s.fd ++ [unused_slot] := by
    simp [realloc, hwf]
  have hset : (s.fd ++ [unused_slot]).set s.fds ⟨new_fd, some b, impl⟩
      = s.fd ++ [⟨new_fd, some b, impl⟩] := by
    rw [hwf]; exact set_split s.fd [] _ _
  simp only [mm_manage_fd, hb, hscan, Nat.lt_irrefl, if_false, hblock]
  by_cases hm : manage = 0
  · simp [hm]
  · simp only [hm, if_false]
    cases hfree : scan is_free s.fd s.fds 0 with
    | none => rfl
    | some u =>
      by_cases hu : u = s.fds
      · subst hu
        have hlt : s.fds < s.fd.length + 1 := by omega
        simp [hset, hlt]
      · simp [hu]

theorem split_index {α : Type} (l : List α) (u : Nat) (e : α) (h : l[u]? = some e) :
    l = l.take u ++ e :: l.drop (u + 1) ∧ (l.take u).length = u := by
  have hlt : u < l.length := by
    rcases List.getElem?_eq_some_iff.1 h with ⟨hlt, _⟩
    exact hlt
  have hget : l[u] = e := by
    rcases List.getElem?_eq_some_iff.1 h with ⟨_, hg⟩
    exact hg
  refine ⟨?_, by simp; omega⟩
  rw [← hget, List.getElem_cons_drop, List.take_append_drop]

theorem mem_take_index {α : Type} (l : List α) (u : Nat) (x : α) (hx : x ∈ l.take u) :
    ∃ j, j < u ∧ l[j]? = some x := by
  rcases List.getElem_of_mem hx with ⟨j, hj, hjx⟩
  have hj2 : j < u ∧ j < l.length := by simpa using hj
  refine ⟨j, hj2.1, ?_⟩
  rw [List.getElem_take] at hjx
  rw [List.getElem?_eq_getElem hj2.2, hjx]

/-- The outcome of a registration when no slot matches and the first free slot is `e`. -/
theorem mm_manage_fd_reuse (backend_match : String → Option backend) (ok_fd : Bool)
    (new_fd : Int) (back : String) (manage : Int) (impl : Option Nat) (s : core) (b : backend)
    (pre post : List managed_fd) (e : managed_fd)
    (hwf : fd_wf s) (hb : backend_match back = some b)
    (habs : ∀ x ∈ s.fd, is_match new_fd b x = false) (hm : manage ≠ 0)
    (hfd : s.fd = pre ++ e :: post)
    (hpre : ∀ x ∈ pre, is_free x = false) (he : is_free e = true) :
    mm_manage_fd backend_match ok_fd new_fd back manage impl s =
      some (0, { s with fd := pre ++ ⟨new_fd, some b, impl⟩ :: post }) := by
  rw [mm_manage_fd_absent backend_match ok_fd new_fd back manage impl s b hwf hb habs]
  unfold fd_wf at hwf
  have hscan : scan is_free s.fd s.fds 0 = some pre.length := by
    rw [hwf, hfd]; exact scan_found _ pre post e hpre he
  have hne : pre.length ≠ s.fds := by rw [hwf, hfd]; simp
  simp only [hm, if_false, hscan, hne]
  simp only [hfd, set_split]

/-- The outcome of a registration when no slot matches and no slot is free. -/
theorem mm_manage_fd_grow (backend_match : String → Option backend) (ok_fd : Bool)
    (new_fd : Int) (back : String) (manage : Int) (impl : Option Nat) (s : core) (b : backend)
    (hwf : fd_wf s) (hb : backend_match back = some b)
    (habs : ∀ x ∈ s.fd, is_match new_fd b x = false) (hm : manage ≠ 0)
    (hfull : ∀ x ∈ s.fd, is_free x = false) :
    mm_manage_fd backend_match ok_fd new_fd back manage impl s =
      if ok_fd then
        some (0, { s with fd := s.fd ++ [⟨new_fd, some b, impl⟩], fds := s.fds + 1 })
      else some (1, { s with fd := [] }) := by
  rw [mm_manage_fd_absent backend_match ok_fd new_fd back manage impl s b hwf hb habs]
  unfold fd_wf at hwf
  have hscan : scan is_free s.fd s.fds 0 = some s.fds := by
    rw [hwf]; exact scan_absent _ s.fd hfull
  simp only [hm, if_false, hscan, if_true]

theorem is_match_iff (new_fd : Int) (b : backend) (e : managed_fd) :
    is_match new_fd b e = true ↔ (e.fd = new_fd ∧ e.backend = some b) := by
  simp [is_match]

theorem is_match_false_iff (new_fd : Int) (b : backend) (e : managed_fd) :
    is_match new_fd b e = false ↔ ¬ (e.fd = new_fd ∧ e.backend = some b) := by
  rw [← is_match_iff]; simp

theorem is_free_iff (e : managed_fd) : is_free e = true ↔ e.fd < 0 := by
  simp [is_free]

theorem is_free_false_iff (e : managed_fd) : is_free e = false ↔ ¬ e.fd < 0 := by
  rw [← is_free_iff]; simp

/-- The split of a block at an index before which no cell passes the test. -/
theorem split_lowest {α : Type} (test : α → Bool) (l : List α) (u : Nat) (e : α)
    (hu : l[u]? = some e)
    (hfirst : ∀ j x, j < u → l[j]? = some x → test x = false) :
    l = l.take u ++ e :: l.drop (u + 1) ∧ (l.take u).length = u ∧
      ∀ x ∈ l.take u, test x = false := by
  rcases split_index l u e hu with ⟨h1, h2⟩
  refine ⟨h1, h2, ?_⟩
  intro x hx
  rcases mem_take_index l u x hx with ⟨j, hj, hjx⟩
  exact hfirst j x hj hjx

theorem set_lowest {α : Type} (l : List α) (u : Nat) (e e1 : α) (hu : l[u]? = some e) :
    l.take u ++ e1 :: l.drop (u + 1) = l.set u e1 := by
  rcases split_index l u e hu with ⟨h1, h2⟩
  have := set_split (l.take u) (l.drop (u + 1)) e e1
  rw [← h1, h2] at this
  exact this.symm

/-- C7: when slot `u` is the slot of the registry that matches
`(new_fd, backend)` (the lowest such slot, should several match) and the
backend is known, `mm_manage_fd` with `manage == 0` returns 0 and only
overwrites slot `u` with descriptor -1, backend `NULL`, impl `NULL` (every
other slot and the count `fds` are as before); with `manage != 0` it returns 0
and leaves the whole state as it is, the stored `impl` included, whatever
`impl` is passed. -/
theorem mm_manage_fd_matching_slot (backend_match : String → Option backend) (ok_fd : Bool)
    (new_fd : Int) (back : String) (manage : Int) (impl : Option Nat) (s : core) (b : backend)
    (u : Nat) (e : managed_fd)
    (hwf : fd_wf s) (hb : backend_match back = some b)
    (hu : s.fd[u]? = some e) (he : e.fd = new_fd ∧ e.backend = some b)
    (hfirst : ∀ j x, j < u → s.fd[j]? = some x → ¬ (x.fd = new_fd ∧ x.backend = some b)) :
    (manage = 0 →
      mm_manage_fd backend_match ok_fd new_fd back manage impl s
        = some (0, { s with fd := s.fd.set u ⟨-1, none, none⟩ })) ∧
    (manage ≠ 0 →
      mm_manage_fd backend_match ok_fd new_fd back manage impl s = some (0, s)) := by
  rcases split_lowest (is_match new_fd b) s.fd u e hu
      (fun j x hj hx => (is_match_false_iff new_fd b x).2 (hfirst j x hj hx)) with
    ⟨hsplit, _, hpre⟩
  have h := mm_manage_fd_found backend_match ok_fd new_fd back manage impl s b
    (s.fd.take u) (s.fd.drop (u + 1)) e hwf hb hsplit hpre ((is_match_iff new_fd b e).2 he)
  rw [h]
  constructor
  · intro hm
    rw [if_pos hm, set_lowest s.fd u e _ hu]
    rfl
  · intro hm
    rw [if_neg hm]

/-- Unregistering, and registering again, the descriptor 5 of backend 1 held in slot 1. -/
theorem mm_manage_fd_matching_slot_witness :
    mm_manage_fd (fun _ => some 1) true 5 "midi" 0 (some 9)
        { core.init with fds := 2, fd := [⟨3, some 1, none⟩, ⟨5, some 1, some 4⟩] }
      = some (0, { core.init with fds := 2, fd := [⟨3, some 1, none⟩, ⟨-1, none, none⟩] }) :=
  (mm_manage_fd_matching_slot (fun _ => some 1) true 5 "midi" 0 (some 9)
    { core.init with fds := 2, fd := [⟨3, some 1, none⟩, ⟨5, some 1, some 4⟩] } 1 1
    ⟨5, some 1, some 4⟩ (by decide) rfl (by decide) (by decide)
    (by
      intro j x hj hx
      have hj0 : j = 0 := by omega
      subst hj0
      simp at hx
      subst hx
      decide)).1 rfl

/-- C8: reuse before grow.  When no slot matches `(new_fd, backend)` and the
backend is known, a registration (`manage != 0`) that finds a slot with a
negative descriptor stores `(new_fd, backend, impl)` in the lowest such slot
and returns 0, all other slots and `fds` unchanged; when no slot has a negative
descriptor and the `realloc` succeeds, it returns 0 with the new entry in one
added slot at the end, all old slots unchanged.  In the initial registry,
registering `(5, X)`, unregistering it and registering `(7, X)` leaves one slot,
holding `(7, X)`. -/
theorem mm_manage_fd_reuse_before_grow :
    (∀ (backend_match : String → Option backend) (ok_fd : Bool) (new_fd : Int) (back : String)
        (manage : Int) (impl : Option Nat) (s : core) (b : backend),
      fd_wf s → backend_match back = some b → manage ≠ 0 →
      (∀ x ∈ s.fd, ¬ (x.fd = new_fd ∧ x.backend = some b)) →
      (∀ (u : Nat) (e : managed_fd), s.fd[u]? = some e → e.fd < 0 →
        (∀ j x, j < u → s.fd[j]? = some x → ¬ x.fd < 0) →
        mm_manage_fd backend_match ok_fd new_fd back manage impl s
          = some (0, { s with fd := s.fd.set u ⟨new_fd, some b, impl⟩ })) ∧
      ((∀ x ∈ s.fd, ¬ x.fd < 0) →
        mm_manage_fd backend_match true new_fd back manage impl s
          = some (0, { s with fd := s.fd ++ [⟨new_fd, some b, impl⟩], fds := s.fds + 1 }))) ∧
    (∀ (x : backend) (p q : Option Nat),
      ((mm_manage_fd (fun _ => some x) true 5 "X" 1 p core.init).bind fun r1 =>
        (mm_manage_fd (fun _ => some x) true 5 "X" 0 none r1.2).bind fun r2 =>
          mm_manage_fd (fun _ => some x) false 7 "X" 1 q r2.2)
        = some (0, { core.init with fds := 1, fd := [⟨7, some x, q⟩] })) := by
  refine ⟨?_, ?_⟩
  · intro backend_match ok_fd new_fd back manage impl s b hwf hb hm habs
    have habs1 : ∀ x ∈ s.fd, is_match new_fd b x = false :=
      fun x hx => (is_match_false_iff new_fd b x).2 (habs x hx)
    refine ⟨?_, ?_⟩
    · intro u e hu he hfirst
      rcases split_lowest is_free s.fd u e hu
          (fun j x hj hx => (is_free_false_iff x).2 (hfirst j x hj hx)) with
        ⟨hsplit, _, hpre⟩
      rw [mm_manage_fd_reuse backend_match ok_fd new_fd back manage impl s b
        (s.fd.take u) (s.fd.drop (u + 1)) e hwf hb habs1 hm hsplit hpre ((is_free_iff e).2 he),
        set_lowest s.fd u e _ hu]
    · intro hfull
      rw [mm_manage_fd_grow backend_match true new_fd back manage impl s b hwf hb habs1 hm
        (fun x hx => (is_free_false_iff x).2 (hfull x hx))]
      rfl
  · intro x p q
    simp [mm_manage_fd, core.init, scan, is_match, is_free, realloc, unused_slot]

/-- Registering descriptor 7 in a registry whose slot 1 is free. -/
theorem mm_manage_fd_reuse_before_grow_witness :
    mm_manage_fd (fun _ => some 1) false 7 "midi" 1 (some 9)
        { core.init with fds := 2, fd := [⟨3, some 1, none⟩, ⟨-1, none, none⟩] }
      = some (0, { core.init with fds := 2, fd := [⟨3, some 1, none⟩, ⟨7, some 1, some 9⟩] }) :=
  (mm_manage_fd_reuse_before_grow.1 (fun _ => some 1) false 7 "midi" 1 (some 9)
    { core.init with fds := 2, fd := [⟨3, some 1, none⟩, ⟨-1, none, none⟩] } 1
    (by decide) rfl (by decide) (by decide)).1 1 ⟨-1, none, none⟩ (by decide) (by decide)
    (by
      intro j x hj hx
      have hj0 : j = 0 := by omega
      subst hj0
      simp at hx
      subst hx
      decide)

/-- C9: unregistering a pair `(new_fd, backend)` that no slot holds, for a
known backend, returns 0 and leaves the state, the registry included, as it is. -/
theorem mm_manage_fd_unregister_absent (backend_match : String → Option backend)
    (ok_fd : Bool) (new_fd : Int) (back : String) (impl : Option Nat) (s : core) (b : backend)
    (hwf : fd_wf s) (hb : backend_match back = some b)
    (habs : ∀ x ∈ s.fd, ¬ (x.fd = new_fd ∧ x.backend = some b)) :
    mm_manage_fd backend_match ok_fd new_fd back 0 impl s = some (0, s) := by
  rw [mm_manage_fd_absent backend_match ok_fd new_fd back 0 impl s b hwf hb
    (fun x hx => (is_match_false_iff new_fd b x).2 (habs x hx))]
  simp

/-- Unregistering descriptor 8, which the registry does not hold. -/
theorem mm_manage_fd_unregister_absent_witness :
    mm_manage_fd (fun _ => some 1) true 8 "midi" 0 none
        { core.init with fds := 2, fd := [⟨3, some 1, none⟩, ⟨-1, none, none⟩] }
      = some (0, { core.init with fds := 2, fd := [⟨3, some 1, none⟩, ⟨-1, none, none⟩] }) :=
  mm_manage_fd_unregister_absent (fun _ => some 1) true 8 "midi" none
    { core.init with fds := 2, fd := [⟨3, some 1, none⟩, ⟨-1, none, none⟩] } 1
    (by decide) rfl (by decide)

/-- Overwriting one cell keeps a pairwise relation when the new cell is
related to all the others, on either side. -/
theorem pairwise_replace {α : Type} (R : α → α → Prop) (pre post : List α) (e e1 : α)
    (h : (pre ++ e :: post).Pairwise R)
    (hl : ∀ x ∈ pre, R x e1) (hr : ∀ y ∈ post, R e1 y) :
    (pre ++ e1 :: post).Pairwise R := by
  rw [List.pairwise_append] at h ⊢
  rcases h with ⟨h1, h2, h3⟩
  rw [List.pairwise_cons] at h2 ⊢
  refine ⟨h1, ⟨hr, h2.2⟩, ?_⟩
  intro x hx y hy
  rcases List.mem_cons.1 hy with rfl | hy
  · exact hl x hx
  · exact h3 x hx y (List.mem_cons_of_mem _ hy)

/-- Whatever `mm_manage_fd` returns, the state it leaves satisfies the invariant. -/
theorem fd_inv_of_result (backend_match : String → Option backend) (ok_fd : Bool)
    (new_fd : Int) (back : String) (manage : Int) (impl : Option Nat) (s s1 : core) (rv : Int)
    (hwf : fd_wf s) (hinv : fd_inv s)
    (h : mm_manage_fd backend_match ok_fd new_fd back manage impl s = some (rv, s1)) :
    fd_inv s1 := by
  cases hb : backend_match back with
  | none =>
    simp only [mm_manage_fd, hb, Option.some.injEq, Prod.mk.injEq] at h
    rw [← h.2]; exact hinv
  | some b =>
    rcases split_first (is_match new_fd b) s.fd with habs | ⟨pre, e, post, hfd, hpre, he⟩
    · by_cases hm : manage = 0
      · rw [mm_manage_fd_absent backend_match ok_fd new_fd back manage impl s b hwf hb habs,
          if_pos hm] at h
        simp only [Option.some.injEq, Prod.mk.injEq] at h
        rw [← h.2]; exact hinv
      · have hnew_l : ∀ x ∈ s.fd, distinct_slots x ⟨new_fd, some b, impl⟩ := by
          intro x hx _ hsame
          exact (is_match_false_iff new_fd b x).1 (habs x hx) hsame
        have hnew_r : ∀ x ∈ s.fd, distinct_slots ⟨new_fd, some b, impl⟩ x := by
          intro x hx _ hsame
          exact (is_match_false_iff new_fd b x).1 (habs x hx) ⟨hsame.1.symm, hsame.2.symm⟩
        rcases split_first is_free s.fd with hfull | ⟨pre, e, post, hfd, hpre, he⟩
        · rw [mm_manage_fd_grow backend_match ok_fd new_fd back manage impl s b hwf hb habs hm
            hfull] at h
          cases ok_fd with
          | false =>
            simp only [Bool.false_eq_true, if_false, Option.some.injEq, Prod.mk.injEq] at h
            rw [← h.2]; exact List.Pairwise.nil
          | true =>
            simp only [if_true, Option.some.injEq, Prod.mk.injEq] at h
            rw [← h.2]
            show (s.fd ++ [(⟨new_fd, some b, impl⟩ : managed_fd)]).Pairwise distinct_slots
            rw [List.pairwise_append]
            refine ⟨hinv, List.pairwise_singleton _ _, ?_⟩
            intro x hx y hy
            rw [List.mem_singleton] at hy
            subst hy
            exact hnew_l x hx
        · rw [mm_manage_fd_reuse backend_match ok_fd new_fd back manage impl s b pre post e
            hwf hb habs hm hfd hpre he] at h
          simp only [Option.some.injEq, Prod.mk.injEq] at h
          rw [← h.2]
          show (pre ++ (⟨new_fd, some b, impl⟩ : managed_fd) :: post).Pairwise distinct_slots
          have hinv1 : (pre ++ e :: post).Pairwise distinct_slots := by
            rw [← hfd]; exact hinv
          exact pairwise_replace _ pre post e _ hinv1
            (fun x hx => hnew_l x (by simp [hfd, hx]))
            (fun x hx => hnew_r x (by simp [hfd, hx]))
    · rw [mm_manage_fd_found backend_match ok_fd new_fd back manage impl s b pre post e
        hwf hb hfd hpre he] at h
      by_cases hm : manage = 0
      · simp only [hm, if_true, Option.some.injEq, Prod.mk.injEq] at h
        rw [← h.2]
        show (pre ++ unused_slot :: post).Pairwise distinct_slots
        have hinv1 : (pre ++ e :: post).Pairwise distinct_slots := by
          rw [← hfd]; exact hinv
        refine pairwise_replace _ pre post e _ hinv1 ?_ ?_
        · intro x _ hx hsame
          exact hx hsame.1
        · intro x _ hx _
          exact hx rfl
      · simp only [hm, if_false, Option.some.injEq, Prod.mk.injEq] at h
        rw [← h.2]; exact hinv

/-- On a well-formed registry `mm_manage_fd` always returns. -/
theorem mm_manage_fd_defined (backend_match : String → Option backend) (ok_fd : Bool)
    (new_fd : Int) (back : String) (manage : Int) (impl : Option Nat) (s : core)
    (hwf : fd_wf s) :
    ∃ r, mm_manage_fd backend_match ok_fd new_fd back manage impl s = some r := by
  cases hb : backend_match back with
  | none => exact ⟨(1, s), by simp [mm_manage_fd, hb]⟩
  | some b =>
    rcases split_first (is_match new_fd b) s.fd with habs | ⟨pre, e, post, hfd, hpre, he⟩
    · by_cases hm : manage = 0
      · rw [mm_manage_fd_absent backend_match ok_fd new_fd back manage impl s b hwf hb habs,
          if_pos hm]
        exact ⟨_, rfl⟩
      · rcases split_first is_free s.fd with hfull | ⟨pre, e, post, hfd, hpre, he⟩
        · rw [mm_manage_fd_grow backend_match ok_fd new_fd back manage impl s b hwf hb habs hm
            hfull]
          cases ok_fd
          · exact ⟨_, rfl⟩
          · exact ⟨_, rfl⟩
        · rw [mm_manage_fd_reuse backend_match ok_fd new_fd back manage impl s b pre post e
            hwf hb habs hm hfd hpre he]
          exact ⟨_, rfl⟩
    · rw [mm_manage_fd_found backend_match ok_fd new_fd back manage impl s b pre post e
        hwf hb hfd hpre he]
      by_cases hm : manage = 0
      · rw [if_pos hm]; exact ⟨_, rfl⟩
      · rw [if_neg hm]; exact ⟨_, rfl⟩

/-- C10: every call of `mm_manage_fd`, whatever its arguments and the answer
of the allocator, returns and preserves the invariant of the registry: no two
slots whose descriptor is not -1 hold the same descriptor and backend. -/
theorem mm_manage_fd_preserves_inv (backend_match : String → Option backend) (ok_fd : Bool)
    (new_fd : Int) (back : String) (manage : Int) (impl : Option Nat) (s : core)
    (hwf : fd_wf s) (hinv : fd_inv s) :
    ∃ rv s1, mm_manage_fd backend_match ok_fd new_fd back manage impl s = some (rv, s1) ∧
      fd_inv s1 := by
  rcases mm_manage_fd_defined backend_match ok_fd new_fd back manage impl s hwf with
    ⟨⟨rv, s1⟩, h⟩
  exact ⟨rv, s1, h, fd_inv_of_result backend_match ok_fd new_fd back manage impl s s1 rv
    hwf hinv h⟩

/-- Registering descriptor 3 for backend 2 next to descriptor 3 of backend 1. -/
theorem mm_manage_fd_preserves_inv_witness :
    ∃ rv s1,
      mm_manage_fd (fun n => if n = "midi" then some 1 else some 2) false 3 "osc" 1 (some 9)
        { core.init with fds := 2, fd := [⟨3, some 1, none⟩, ⟨-1, none, none⟩] }
        = some (rv, s1) ∧ fd_inv s1 :=
  mm_manage_fd_preserves_inv (fun n => if n = "midi" then some 1 else some 2) false 3 "osc" 1
    (some 9) { core.init with fds := 2, fd := [⟨3, some 1, none⟩, ⟨-1, none, none⟩] }
    (by decide) (by decide)

/-! ## The event collections: what `mm_channel_event` computes -/

theorem take_set_succ {α : Type} (d : α) :
    ∀ (l : List α) (i : Nat), i < l.length → (l.set i d).take (i + 1) = l.take i ++ [d] := by
  intro l
  induction l with
  | nil => intro i h; simp at h
  | cons x xs ih =>
    intro i h
    cases i with
    | zero => simp
    | succ j =>
      have hj : j < xs.length := by simpa using h
      simp [ih j hj]

theorem drop_set_after {α : Type} (d : α) :
    ∀ (l : List α) (i m : Nat), i < m → (l.set i d).drop m = l.drop m := by
  intro l
  induction l with
  | nil => intro i m _; simp
  | cons x xs ih =>
    intro i m h
    cases m with
    | zero => omega
    | succ m1 =>
      cases i with
      | zero => simp
      | succ j => simp [ih j m1 (by omega)]

/-- The loop of lines 179-182 overwrites the cells `n + p, ...` with the
destinations and the value, and nothing else. -/
theorem enqueue_spec (v : channel_value) :
    ∀ (ds : List channel) (p : Nat) (c : event_collection),
      c.n + p + ds.length ≤ c.channel.length → c.n + p + ds.length ≤ c.value.length →
      enqueue v ds p c = some
        { c with
          channel := c.channel.take (c.n + p) ++ ds ++ c.channel.drop (c.n + p + ds.length),
          value := c.value.take (c.n + p) ++ List.replicate ds.length v
            ++ c.value.drop (c.n + p + ds.length) } := by
  intro ds
  induction ds with
  | nil =>
    intro p c _ _
    simp [enqueue]
  | cons d ds ih =>
    intro p c h1 h2
    simp only [List.length_cons] at h1 h2
    have hb : c.n + p < c.channel.length ∧ c.n + p < c.value.length := by omega
    simp only [enqueue, hb, and_self, if_true]
    rw [ih (p + 1) _ (by simp; omega) (by simp; omega)]
    simp only [Option.some.injEq]
    have e1 : c.n + (p + 1) = c.n + p + 1 := by omega
    have e2 : c.n + p + 1 + ds.length = c.n + p + (ds.length + 1) := by omega
    simp only [e1, take_set_succ d c.channel (c.n + p) hb.1,
      take_set_succ v c.value (c.n + p) hb.2,
      drop_set_after d c.channel (c.n + p) (c.n + p + 1 + ds.length) (by omega),
      drop_set_after v c.value (c.n + p) (c.n + p + 1 + ds.length) (by omega), e2,
      List.length_cons, List.replicate_succ]
    rw [drop_set_after d c.channel (c.n + p) (c.n + p + (ds.length + 1)) (by omega),
      drop_set_after v c.value (c.n + p) (c.n + p + (ds.length + 1)) (by omega)]
    simp

theorem pool_set_pool (s : core) (i : Fin 2) (c : event_collection) :
    (s.set_pool i c).pool i = c := by
  by_cases h : i = 0 <;> simp [core.pool, core.set_pool, h]

theorem pool_set_pool_other (s : core) (i j : Fin 2) (c : event_collection) (h : j ≠ i) :
    (s.set_pool i c).pool j = s.pool j := by
  by_cases hi : i = 0 <;> by_cases hj : j = 0
  · exact absurd (hj.trans hi.symm) h
  · simp [core.pool, core.set_pool, hi, hj]
  · simp [core.pool, core.set_pool, hi, hj]
  · exact absurd (by omega : j = i) h

theorem set_pool_frame (s : core) (i : Fin 2) (c : event_collection) :
    (s.set_pool i c).primary = s.primary ∧ (s.set_pool i c).map = s.map ∧
    (s.set_pool i c).mappings = s.mappings ∧ (s.set_pool i c).fd = s.fd ∧
    (s.set_pool i c).fds = s.fds := by
  by_cases h : i = 0 <;> simp [core.set_pool, h]

theorem standby_ne_primary (s : core) : s.standby ≠ s.primary := by
  unfold core.standby
  by_cases h : s.primary = 0
  · simp [h]
  · simp [h]; exact fun h0 => h h0.symm

theorem length_realloc {α : Type} (fill : α) (block : List α) (count : Nat) :
    (realloc fill block count).length = count := by
  simp [realloc]; omega

theorem take_realloc {α : Type} (fill : α) (block : List α) (count n : Nat)
    (h1 : n ≤ count) (h2 : n ≤ block.length) :
    (realloc fill block count).take n = block.take n := by
  unfold realloc
  rw [List.take_append_of_le_length (by simp; omega), List.take_take]
  congr 1
  omega

/-- The pending events after the cells `n, ..., n + k - 1` are written and `n` is advanced. -/
theorem events_enqueued (c : event_collection) (ds : List channel) (v : channel_value)
    (h1 : c.n ≤ c.channel.length) (h2 : c.n ≤ c.value.length) :
    events
      { c with
        channel := c.channel.take (c.n + 0) ++ ds ++ c.channel.drop (c.n + 0 + ds.length),
        value := c.value.take (c.n + 0) ++ List.replicate ds.length v
          ++ c.value.drop (c.n + 0 + ds.length),
        n := c.n + ds.length }
      = events c ++ ds.map (fun d => (d, v)) := by
  unfold events
  simp only [Nat.add_zero]
  have hl1 : (c.channel.take c.n ++ ds).length = c.n + ds.length := by simp; omega
  have hl2 : (c.value.take c.n ++ List.replicate ds.length v).length = c.n + ds.length := by
    simp; omega
  rw [List.take_left' hl1, List.take_left' hl2]
  rw [List.zip_append (by simp; omega)]
  congr 1
  clear hl1 hl2
  induction ds with
  | nil => rfl
  | cons d ds ih => simp [List.replicate_succ, ih]

/-- Lines 177-185 on a collection with room for the destinations: the
destinations are appended to the pending events. -/
theorem enqueue_all_spec (v : channel_value) (ds : List channel) (s : core)
    (c : event_collection) (hn : c.n + ds.length ≤ c.alloc)
    (h1 : c.alloc ≤ c.channel.length) (h2 : c.alloc ≤ c.value.length) :
    ∃ c1, enqueue_all v ds s c = some (0, s.set_pool s.primary c1) ∧
      c1.n = c.n + ds.length ∧ c1.alloc = c.alloc ∧
      events c1 = events c ++ ds.map (fun d => (d, v)) ∧ collection_wf c1 := by
  have hspec := enqueue_spec v ds 0 c (by omega) (by omega)
  refine ⟨_, ?_, ?_, ?_, events_enqueued c ds v (by omega) (by omega), ?_⟩
  · simp only [enqueue_all, hspec]
  · rfl
  · rfl
  · unfold collection_wf
    simp
    omega

/-- An event on a channel without mapping entry returns 0 at line 159. -/
theorem mm_channel_event_absent (ok_channel ok_value : Bool) (c : channel) (v : channel_value)
    (s : core) (hwf : map_wf s) (habs : ∀ x ∈ s.map, x.from_ ≠ c) :
    mm_channel_event ok_channel ok_value c v s = some (0, s) := by
  simp [mm_channel_event, find_source_absent c s hwf habs]

/-- An event on a channel whose first entry is `e`, when the collection has
room or both calls of `realloc` succeed: the destinations of `e` are appended
to the pending events of the primary collection. -/
theorem mm_channel_event_found (ok_channel ok_value : Bool) (c : channel) (v : channel_value)
    (s : core) (pre post : List channel_mapping) (e : channel_mapping)
    (hwf : map_wf s) (hmap : s.map = pre ++ e :: post)
    (hpre : ∀ x ∈ pre, x.from_ ≠ c) (he : e.from_ = c)
    (hp : collection_wf (s.pool s.primary))
    (hok : (s.pool s.primary).n + e.to_.length < (s.pool s.primary).alloc ∨
      (ok_channel = true ∧ ok_value = true)) :
    ∃ c1, mm_channel_event ok_channel ok_value c v s = some (0, s.set_pool s.primary c1) ∧
      c1.n = (s.pool s.primary).n + e.to_.length ∧
      c1.alloc = (if (s.pool s.primary).n + e.to_.length ≥ (s.pool s.primary).alloc
        then (s.pool s.primary).alloc + e.to_.length else (s.pool s.primary).alloc) ∧
      events c1 = events (s.pool s.primary) ++ e.to_.map (fun d => (d, v)) ∧
      collection_wf c1 := by
  have hfind := find_source_found c s pre post e hwf hmap hpre he
  have hne : pre.length ≠ s.mappings := by
    unfold map_wf at hwf; rw [hwf, hmap]; simp
  have hget : s.map[pre.length]? = some e := by rw [hmap]; exact getElem?_split pre post e
  unfold collection_wf at hp
  simp only [mm_channel_event, hfind, hne, if_false, hget]
  by_cases hgrow : (s.pool s.primary).n + e.to_.length ≥ (s.pool s.primary).alloc
  · have hoks : ok_channel = true ∧ ok_value = true := by
      rcases hok with h | h
      · omega
      · exact h
    simp only [hgrow, if_true, hoks.1, hoks.2, Bool.true_eq_false, or_self, if_false]
    rcases enqueue_all_spec v e.to_ s
        { (s.pool s.primary) with
          alloc := (s.pool s.primary).alloc + e.to_.length,
          channel := realloc 0 (s.pool s.primary).channel
            ((s.pool s.primary).alloc + e.to_.length),
          value := realloc 0 (s.pool s.primary).value
            ((s.pool s.primary).alloc + e.to_.length) }
        (by simp; omega) (by simp [length_realloc]) (by simp [length_realloc]) with
      ⟨c1, h1, h2, h3, h4, h5⟩
    refine ⟨c1, h1, h2, h3, ?_, h5⟩
    rw [h4]
    congr 1
    unfold events
    simp only
    rw [take_realloc _ _ _ _ (by omega) (by omega), take_realloc _ _ _ _ (by omega) (by omega)]
  · simp only [hgrow, if_false]
    rcases enqueue_all_spec v e.to_ s (s.pool s.primary) (by omega) hp.2.1 hp.2.2 with
      ⟨c1, h1, h2, h3, h4, h5⟩
    exact ⟨c1, h1, h2, h3, h4, h5⟩

/-- An event on a channel whose first entry is `e`, when the collection has to
grow and a `realloc` fails: the call returns 1 with `n` and `alloc` reset to 0. -/
theorem mm_channel_event_fail (ok_channel ok_value : Bool) (c : channel) (v : channel_value)
    (s : core) (pre post : List channel_mapping) (e : channel_mapping)
    (hwf : map_wf s) (hmap : s.map = pre ++ e :: post)
    (hpre : ∀ x ∈ pre, x.from_ ≠ c) (he : e.from_ = c)
    (hgrow : (s.pool s.primary).n + e.to_.length ≥ (s.pool s.primary).alloc)
    (hfail : ok_channel = false ∨ ok_value = false) :
    ∃ channel value, mm_channel_event ok_channel ok_value c v s
      = some (1, s.set_pool s.primary ⟨0, 0, channel, value⟩) := by
  have hfind := find_source_found c s pre post e hwf hmap hpre he
  have hne : pre.length ≠ s.mappings := by
    unfold map_wf at hwf; rw [hwf, hmap]; simp
  have hget : s.map[pre.length]? = some e := by rw [hmap]; exact getElem?_split pre post e
  simp only [mm_channel_event, hfind, hne, if_false, hget, hgrow, if_true, hfail]
  exact ⟨_, _, rfl⟩

/-- The first entry for `c`, as `List.find?` returns it, splits the table. -/
theorem split_of_find (c : channel) (l : List channel_mapping) (e : channel_mapping)
    (h : l.find? (fun x => decide (x.from_ = c)) = some e) :
    ∃ pre post, l = pre ++ e :: post ∧ (∀ x ∈ pre, x.from_ ≠ c) ∧ e.from_ = c := by
  rcases split_source c l with habs | ⟨pre, e1, post, hl, hpre, he⟩
  · have : l.find? (fun x => decide (x.from_ = c)) = none := by
      rw [List.find?_eq_none]
      intro x hx
      simpa using habs x hx
    rw [this] at h
    exact absurd h (by simp)
  · have hnone : pre.find? (fun x => decide (x.from_ = c)) = none := by
      rw [List.find?_eq_none]
      intro x hx
      simpa using hpre x hx
    have : l.find? (fun x => decide (x.from_ = c)) = some e1 := by
      rw [hl, List.find?_append]
      simp [hnone, List.find?_cons, he]
    rw [this] at h
    have hee : e1 = e := by simpa using h
    subst hee
    exact ⟨pre, post, hl, hpre, he⟩

/-- C2: for a channel `c` whose mapping entry (the one the loop of lines
151-155 stops at) has the destination list `e.to_` and every value `v`: when
both calls of `realloc` succeed, `mm_channel_event(c, v)` returns 0; and
whenever it returns 0, the pending events of the primary collection are the
previous ones followed by `(d, v)` for each destination `d`, in the order of
the destination list, `n` has grown by the number of destinations, and the
other collection, `primary` and the mapping table are unchanged. -/
theorem mm_channel_event_appends (ok_channel ok_value : Bool) (c : channel) (v : channel_value)
    (s : core) (e : channel_mapping)
    (hwf : map_wf s) (hp : collection_wf (s.pool s.primary))
    (he : s.map.find? (fun x => decide (x.from_ = c)) = some e) :
    (ok_channel = true → ok_value = true →
      ∃ s1, mm_channel_event ok_channel ok_value c v s = some (0, s1)) ∧
    ∀ s1, mm_channel_event ok_channel ok_value c v s = some (0, s1) →
      events (s1.pool s1.primary) = events (s.pool s.primary) ++ e.to_.map (fun d => (d, v)) ∧
      (s1.pool s1.primary).n = (s.pool s.primary).n + e.to_.length ∧
      s1.pool s1.standby = s.pool s.standby ∧
      s1.primary = s.primary ∧ s1.map = s.map ∧ s1.mappings = s.mappings := by
  rcases split_of_find c s.map e he with ⟨pre, post, hmap, hpre, hec⟩
  constructor
  · intro h1 h2
    rcases mm_channel_event_found ok_channel ok_value c v s pre post e hwf hmap hpre hec hp
      (Or.inr ⟨h1, h2⟩) with ⟨c1, hc1, _⟩
    exact ⟨_, hc1⟩
  · intro s1 hs1
    by_cases hok : (s.pool s.primary).n + e.to_.length < (s.pool s.primary).alloc ∨
        (ok_channel = true ∧ ok_value = true)
    · rcases mm_channel_event_found ok_channel ok_value c v s pre post e hwf hmap hpre hec hp
        hok with ⟨c1, hc1, hn, _, hev, _⟩
      rw [hc1] at hs1
      simp only [Option.some.injEq, Prod.mk.injEq, true_and] at hs1
      subst hs1
      have hf := set_pool_frame s s.primary c1
      have hst : (s.set_pool s.primary c1).standby = s.standby := by
        unfold core.standby; rw [hf.1]
      rw [hf.1, pool_set_pool, hst, pool_set_pool_other _ _ _ _ (standby_ne_primary s)]
      exact ⟨hev, hn, rfl, rfl, hf.2.1, hf.2.2.1⟩
    · have hgrow : (s.pool s.primary).n + e.to_.length ≥ (s.pool s.primary).alloc := by omega
      have hfail : ok_channel = false ∨ ok_value = false := by
        cases ok_channel <;> cases ok_value <;> simp_all
      rcases mm_channel_event_fail ok_channel ok_value c v s pre post e hwf hmap hpre hec
        hgrow hfail with ⟨ch, va, hr⟩
      rw [hr] at hs1
      simp at hs1

/-- An event on channel 1, mapped to 2 and 3, with one event pending and no room left. -/
theorem mm_channel_event_appends_witness :
    events (({ core.init with mappings := 1, map := [⟨1, [2, 3]⟩],
                              event_pool0 := ⟨3, 3, [9, 2, 3], [4, 7, 7]⟩ } : core).pool 0)
      = events (⟨1, 1, [9], [4]⟩ : event_collection) ++ [(2, 7), (3, 7)] :=
  ((mm_channel_event_appends true true 1 7
    { core.init with mappings := 1, map := [⟨1, [2, 3]⟩], event_pool0 := ⟨1, 1, [9], [4]⟩ }
    ⟨1, [2, 3]⟩ (by decide) (by decide) (by decide)).2
    { core.init with mappings := 1, map := [⟨1, [2, 3]⟩],
                     event_pool0 := ⟨3, 3, [9, 2, 3], [4, 7, 7]⟩ } (by decide)).1

/-- C4: an event on a channel without mapping entry returns 0 and leaves the
whole state as it is: both event collections (count, capacity, contents), the
mapping table and everything else. -/
theorem mm_channel_event_unmapped (ok_channel ok_value : Bool) (c : channel)
    (v : channel_value) (s : core) (hwf : map_wf s)
    (habs : ∀ x ∈ s.map, x.from_ ≠ c) :
    mm_channel_event ok_channel ok_value c v s = some (0, s) :=
  mm_channel_event_absent ok_channel ok_value c v s hwf habs

/-- An event on channel 5 in a table whose only entry is for channel 1. -/
theorem mm_channel_event_unmapped_witness :
    mm_channel_event false false 5 7
        { core.init with mappings := 1, map := [⟨1, [2, 3]⟩], event_pool0 := ⟨1, 1, [9], [4]⟩ }
      = some (0, { core.init with mappings := 1, map := [⟨1, [2, 3]⟩],
                                  event_pool0 := ⟨1, 1, [9], [4]⟩ }) :=
  mm_channel_event_unmapped false false 5 7
    { core.init with mappings := 1, map := [⟨1, [2, 3]⟩], event_pool0 := ⟨1, 1, [9], [4]⟩ }
    (by decide) (by decide)

/-! ## The drain loop -/

/-- Raising events on channels without mapping entry changes nothing and succeeds. -/
theorem raise_events_unmapped (ok : Nat → Bool × Bool) (s : core) (hwf : map_wf s) :
    ∀ (evs : batch) (i : Nat), (∀ ev ∈ evs, ∀ x ∈ s.map, x.from_ ≠ ev.1) →
      raise_events ok evs i s = some (0, s) := by
  intro evs
  induction evs with
  | nil => intro i _; rfl
  | cons ev evs ih =>
    intro i h
    obtain ⟨c, v⟩ := ev
    have hc : ∀ x ∈ s.map, x.from_ ≠ c := h (c, v) (by simp)
    simp only [raise_events, mm_channel_event_absent _ _ c v s hwf hc]
    simpa using ih (i + 1) (fun ev hev => h ev (List.mem_cons_of_mem _ hev))

/-- C3: fan-out, end to end.  For distinct channels `a`, `b`, `c`, from the
initial state, `mm_map_channel(a, b)`, `mm_map_channel(a, c)` and
`mm_channel_event(a, v)` succeed, and the drain loop, with a
`backends_notify` that only raises events on `b` or `c` again, then calls
`backends_notify` exactly once, with the batch `[(b, v), (c, v)]`, and ends
with no event pending. -/
theorem fan_out_end_to_end (a b c : channel) (v : channel_value) (notify : notify_fn)
    (fuel : Nat) (hab : a ≠ b) (hac : a ≠ c) (hbc : b ≠ c)
    (hnotify : ∀ call secondary n s, ∃ ok evs, (∀ ev ∈ evs, ev.1 = b ∨ ev.1 = c) ∧
      notify call secondary n s = raise_events ok evs 0 s) :
    ∃ s1 s2 s3 s4,
      mm_map_channel true true a b core.init = some (0, s1) ∧
      mm_map_channel true true a c s1 = some (0, s2) ∧
      mm_channel_event true true a v s2 = some (0, s3) ∧
      drain notify (fuel + 1) 0 s3 [] = (.quiescent, s4, [[(b, v), (c, v)]]) ∧
      (s4.pool s4.primary).n = 0 ∧ (s4.pool s4.standby).n = 0 := by
  have hcb : ¬ c = b := fun h => hbc h.symm
  refine ⟨{ core.init with mappings := 1, map := [⟨a, [b]⟩] },
    { core.init with mappings := 1, map := [⟨a, [b, c]⟩] },
    { core.init with mappings := 1, map := [⟨a, [b, c]⟩],
                     event_pool0 := ⟨2, 2, [b, c], [v, v]⟩ },
    { core.init with mappings := 1, map := [⟨a, [b, c]⟩],
                     event_pool0 := ⟨2, 0, [b, c], [v, v]⟩, primary := 1 },
    ?_, ?_, ?_, ?_, rfl, rfl⟩
  · simp [mm_map_channel, find_source, scan, core.init, realloc, map_destination]
  · simp [mm_map_channel, find_source, scan, core.init, map_destination, hcb]
  · simp [mm_channel_event, find_source, scan, core.init, core.pool, core.set_pool,
      enqueue_all, enqueue, realloc]
  · rcases hnotify 0 0 2
        { core.init with mappings := 1, map := [⟨a, [b, c]⟩],
                         event_pool0 := ⟨2, 2, [b, c], [v, v]⟩, primary := 1 } with
      ⟨ok, evs, hevs, hn⟩
    have hraise := raise_events_unmapped ok
      { core.init with mappings := 1, map := [⟨a, [b, c]⟩],
                       event_pool0 := ⟨2, 2, [b, c], [v, v]⟩, primary := 1 }
      (by simp [map_wf, core.init]) evs 0
      (by
        intro ev hev x hx
        simp only [core.init, List.mem_singleton] at hx
        subst hx
        rcases hevs ev hev with h | h
        · rw [h]; exact hab
        · rw [h]; exact hac)
    rw [hraise] at hn
    simp only [core.init] at hn
    cases fuel <;>
      simp [drain, swap_collectors, core.pool, core.set_pool, core.init, hn, events]

/-- Channels 1, 2, 3, value 42, and a `backends_notify` that raises an event on channel 2. -/
theorem fan_out_end_to_end_witness :
    ∃ s1 s2 s3 s4,
      mm_map_channel true true 1 2 core.init = some (0, s1) ∧
      mm_map_channel true true 1 3 s1 = some (0, s2) ∧
      mm_channel_event true true 1 42 s2 = some (0, s3) ∧
      drain (fun _ _ _ s => raise_events (fun _ => (true, true)) [(2, 42)] 0 s) (0 + 1) 0 s3 []
        = (.quiescent, s4, [[(2, 42), (3, 42)]]) ∧
      (s4.pool s4.primary).n = 0 ∧ (s4.pool s4.standby).n = 0 :=
  fan_out_end_to_end 1 2 3 42 (fun _ _ _ s => raise_events (fun _ => (true, true)) [(2, 42)] 0 s)
    0 (by decide) (by decide) (by decide)
    (fun _ _ _ _ => ⟨fun _ => (true, true), [(2, 42)], by simp, rfl⟩)

theorem events_length (c : event_collection) (h : collection_wf c) :
    (events c).length = c.n := by
  unfold collection_wf at h
  unfold events
  simp
  omega

theorem events_of_n_zero (c : event_collection) (h : c.n = 0) : events c = [] := by
  simp [events, h]

/-- The cell `i` of a collection is the `i`-th pending event. -/
theorem events_cell (c : event_collection) (h : collection_wf c) (i : Nat) (hi : i < c.n) :
    ∃ ch v, c.channel[i]? = some ch ∧ c.value[i]? = some v ∧
      (events c).drop i = (ch, v) :: (events c).drop (i + 1) := by
  have hlen := events_length c h
  have hlt : i < (events c).length := by omega
  have hget : (events c)[i]? = some (events c)[i] := List.getElem?_eq_getElem hlt
  unfold events at hget
  rw [List.getElem?_zip_eq_some, List.getElem?_take_of_lt hi, List.getElem?_take_of_lt hi]
    at hget
  refine ⟨_, _, hget.1, hget.2, ?_⟩
  exact List.drop_eq_getElem_cons hlt

theorem set_pool_pool_self (s : core) : s.set_pool s.primary (s.pool s.primary) = s := by
  unfold core.pool core.set_pool
  by_cases h : s.primary = 0
  · rw [if_pos h, if_pos h]
  · rw [if_neg h, if_neg h]

/-- One call of `mm_channel_event` on a well-formed state: either it returns 0
and has appended the destinations of `c` to the pending events of the primary
collection, or a `realloc` has failed and it returns 1 with `n` reset to 0. -/
theorem mm_channel_event_step (ok_channel ok_value : Bool) (c : channel) (v : channel_value)
    (t : core) (hwf : map_wf t) (hp : collection_wf (t.pool t.primary)) :
    (∃ c1, mm_channel_event ok_channel ok_value c v t = some (0, t.set_pool t.primary c1) ∧
      events c1 = events (t.pool t.primary) ++ (lookup t.map c).map (fun d => (d, v)) ∧
      collection_wf c1) ∨
    ((ok_channel = false ∨ ok_value = false) ∧
      ∃ channel value, mm_channel_event ok_channel ok_value c v t
        = some (1, t.set_pool t.primary ⟨0, 0, channel, value⟩)) := by
  rcases split_source c t.map with habs | ⟨pre, e, post, hmap, hpre, he⟩
  · left
    refine ⟨t.pool t.primary, ?_, ?_, hp⟩
    · rw [set_pool_pool_self]; exact mm_channel_event_absent _ _ c v t hwf habs
    · simp [lookup_absent t.map c habs]
  · have hl : lookup t.map c = e.to_ := lookup_found t.map c pre post e hmap hpre he
    by_cases hok : (t.pool t.primary).n + e.to_.length < (t.pool t.primary).alloc ∨
        (ok_channel = true ∧ ok_value = true)
    · left
      rcases mm_channel_event_found ok_channel ok_value c v t pre post e hwf hmap hpre he hp
        hok with ⟨c1, hc1, _, _, hev, hwf1⟩
      exact ⟨c1, hc1, by rw [hl]; exact hev, hwf1⟩
    · right
      have hgrow : (t.pool t.primary).n + e.to_.length ≥ (t.pool t.primary).alloc := by omega
      have hfail : ok_channel = false ∨ ok_value = false := by
        cases ok_channel <;> cases ok_value <;> simp_all
      exact ⟨hfail, mm_channel_event_fail ok_channel ok_value c v t pre post e hwf hmap hpre he
        hgrow hfail⟩

/-- The cascade model of `backends_notify` on the cells `i, ..., n - 1` of the
collection it is handed: either every delivered event is raised again, its
destinations being appended to the primary collection while the delivered
collection stays as it is, or a `realloc` fails and the call returns 1 with the
count of the primary collection reset to 0. -/
theorem reraise_spec (ok : Nat → Bool × Bool) (secondary : Fin 2) :
    ∀ (left i : Nat) (t : core),
      map_wf t → t.primary ≠ secondary → collection_wf (t.pool secondary) →
      collection_wf (t.pool t.primary) → i + left = (t.pool secondary).n →
      (∃ t1, reraise ok secondary left i t = some (0, t1) ∧
        t1.map = t.map ∧ t1.mappings = t.mappings ∧ t1.primary = t.primary ∧
        t1.pool secondary = t.pool secondary ∧ collection_wf (t1.pool t1.primary) ∧
        events (t1.pool t1.primary) = events (t.pool t.primary) ++
          ((events (t.pool secondary)).drop i).flatMap
            (fun ev => (lookup t.map ev.1).map (fun d => (d, ev.2)))) ∨
      ((∃ j, (ok j).1 = false ∨ (ok j).2 = false) ∧
        ∃ t1, reraise ok secondary left i t = some (1, t1) ∧ (t1.pool t1.primary).n = 0) := by
  intro left
  induction left with
  | zero =>
    intro i t _ _ hs hp hi
    left
    refine ⟨t, rfl, rfl, rfl, rfl, rfl, hp, ?_⟩
    have hlen := events_length _ hs
    rw [List.drop_of_length_le (by omega)]
    simp
  | succ left ih =>
    intro i t hwf hne hs hp hi
    rcases events_cell _ hs i (by omega) with ⟨c, v, hc, hv, hdrop⟩
    simp only [reraise, hc, hv]
    rcases mm_channel_event_step (ok i).1 (ok i).2 c v t hwf hp with
      ⟨c1, hr, hev, hwf1⟩ | ⟨hfail, ch, va, hr⟩
    · rw [hr]
      simp only [ne_eq, not_true_eq_false, if_false]
      have hf := set_pool_frame t t.primary c1
      have hother : (t.set_pool t.primary c1).pool secondary = t.pool secondary :=
        pool_set_pool_other _ _ _ _ (fun h => hne h.symm)
      have hprim : (t.set_pool t.primary c1).pool (t.set_pool t.primary c1).primary = c1 := by
        rw [hf.1, pool_set_pool]
      rcases ih (i + 1) (t.set_pool t.primary c1)
          (by unfold map_wf at *; rw [hf.2.1, hf.2.2.1]; exact hwf)
          (by rw [hf.1]; exact hne)
          (by rw [hother]; exact hs)
          (by rw [hprim]; exact hwf1)
          (by rw [hother]; omega) with
        ⟨t1, h1, h2, h3, h4, h5, h6, h7⟩ | ⟨hj, t1, h1, h2⟩
      · left
        refine ⟨t1, h1, h2.trans hf.2.1, h3.trans hf.2.2.1, h4.trans hf.1, h5.trans hother,
          h6, ?_⟩
        rw [h7, hprim, hother, hf.2.1, hev, hdrop]
        simp
      · right
        exact ⟨hj, t1, h1, h2⟩
    · right
      refine ⟨⟨i, hfail⟩, t.set_pool t.primary ⟨0, 0, ch, va⟩, ?_, ?_⟩
      · rw [hr]; simp
      · have hf := set_pool_frame t t.primary ⟨0, 0, ch, va⟩
        rw [hf.1, pool_set_pool]

theorem swap_collectors_eq (s : core) : swap_collectors s = { s with primary := s.standby } := by
  unfold swap_collectors core.standby
  by_cases h : s.primary = 0 <;> simp [h]

theorem standby_of_primary (s t : core) (h : t.primary = s.standby) : t.standby = s.primary := by
  unfold core.standby at *
  by_cases h0 : s.primary = 0
  · simp [h0] at h; simp [h, h0]
  · simp [h0] at h
    have : s.primary = 1 := by omega
    simp [h, this]

/-- The drain loop is left at once when no event is pending. -/
theorem drain_done (notify : notify_fn) (fuel call : Nat) (s : core) (trace : List batch)
    (h : (s.pool s.primary).n = 0) :
    drain notify fuel call s trace = (.quiescent, s, trace) := by
  cases fuel <;> simp [drain, h]

/-- One round of the drain loop when events are pending. -/
theorem drain_round (notify : notify_fn) (fuel call : Nat) (s : core) (trace : List batch)
    (h : (s.pool s.primary).n ≠ 0) :
    drain notify (fuel + 1) call s trace =
      match notify call s.primary (s.pool s.primary).n { s with primary := s.standby } with
      | none =>
        (.undefined, { s with primary := s.standby }, trace ++ [events (s.pool s.primary)])
      | some (rv, s2) =>
        if rv ≠ 0 then (.failed, s2, trace ++ [events (s.pool s.primary)])
        else
          drain notify fuel (call + 1)
            (s2.set_pool s.primary { s2.pool s.primary with n := 0 })
            (trace ++ [events (s.pool s.primary)]) := by
  have hp : ∀ k, ({ s with primary := s.standby } : core).pool k = s.pool k := fun _ => rfl
  simp only [drain, h, if_false, swap_collectors_eq, hp, ne_eq, not_false_eq_true, if_true]

/-- A destination of a channel starts paths that are one edge shorter. -/
theorem paths_from_le_succ (map : List channel_mapping) (m : Nat) (c d : channel)
    (hc : paths_from_le map m c) (hd : d ∈ lookup map c) :
    1 ≤ m ∧ paths_from_le map (m - 1) d := by
  have h1 : 1 ≤ m := by
    have := hc [d] (by simp [is_path, edge, hd])
    simpa using this
  refine ⟨h1, ?_⟩
  intro p hp
  have := hc (d :: p) (by
    unfold is_path at *
    exact List.Chain'.cons hd hp)
  simp only [List.length_cons] at this
  omega

/-- One round of the drain loop with the re-raising `backends_notify`, when
events are pending: either the loop goes on with the destinations of the
delivered batch pending in the new primary collection and the count of the
delivered collection reset, or a `realloc` fails and the loop is left through
`bail` with no event pending in the primary collection. -/
theorem drain_reraise_round (ok : Nat → Nat → Bool × Bool) (fuel call : Nat) (s : core)
    (trace : List batch) (hwf : map_wf s) (hp : collection_wf (s.pool s.primary))
    (hs : collection_wf (s.pool s.standby)) (hs0 : (s.pool s.standby).n = 0)
    (hn : (s.pool s.primary).n ≠ 0) :
    (∃ s3, drain (notify_reraise ok) (fuel + 1) call s trace
        = drain (notify_reraise ok) fuel (call + 1) s3 (trace ++ [events (s.pool s.primary)]) ∧
      map_wf s3 ∧ s3.map = s.map ∧ collection_wf (s3.pool s3.primary) ∧
      collection_wf (s3.pool s3.standby) ∧ (s3.pool s3.standby).n = 0 ∧
      events (s3.pool s3.primary) = (events (s.pool s.primary)).flatMap
        (fun ev => (lookup s.map ev.1).map (fun d => (d, ev.2)))) ∨
    ((∃ j, (ok call j).1 = false ∨ (ok call j).2 = false) ∧
      ∃ t1, drain (notify_reraise ok) (fuel + 1) call s trace
          = (.failed, t1, trace ++ [events (s.pool s.primary)]) ∧
        (t1.pool t1.primary).n = 0) := by
  rw [drain_round _ _ _ _ _ hn]
  have hne : ({ s with primary := s.standby } : core).primary ≠ s.primary :=
    standby_ne_primary s
  have hcall : notify_reraise ok call s.primary (s.pool s.primary).n
      { s with primary := s.standby }
      = reraise (ok call) s.primary (s.pool s.primary).n 0 { s with primary := s.standby } := rfl
  rw [hcall]
  rcases reraise_spec (ok call) s.primary (s.pool s.primary).n 0
      { s with primary := s.standby } hwf hne hp hs (by simp [core.pool]) with
    ⟨t1, h1, h2, h3, h4, h5, h6, h7⟩ | ⟨hj, t1, h1, h2⟩
  · left
    have hf := set_pool_frame t1 s.primary { t1.pool s.primary with n := 0 }
    have hprim3 : (t1.set_pool s.primary { t1.pool s.primary with n := 0 }).pool
        (t1.set_pool s.primary { t1.pool s.primary with n := 0 }).primary
        = t1.pool t1.primary := by
      rw [hf.1, pool_set_pool_other _ _ _ _ (by rw [h4]; exact hne)]
    have hstand3 : (t1.set_pool s.primary { t1.pool s.primary with n := 0 }).standby
        = s.primary := standby_of_primary s _ (by rw [hf.1, h4])
    have hwfs : collection_wf
        ((t1.set_pool s.primary { t1.pool s.primary with n := 0 }).pool s.primary) := by
      rw [pool_set_pool, h5]
      have hp1 : collection_wf (s.pool s.primary) := hp
      unfold collection_wf at hp1 ⊢
      exact ⟨Nat.zero_le _, hp1.2.1, hp1.2.2⟩
    have h0 : events (({ s with primary := s.standby } : core).pool s.standby) = [] :=
      events_of_n_zero _ hs0
    refine ⟨t1.set_pool s.primary { t1.pool s.primary with n := 0 }, ?_, ?_, ?_, ?_, ?_, ?_, ?_⟩
    · rw [h1]
      simp
    · unfold map_wf at *; rw [hf.2.1, hf.2.2.1, h2, h3]; exact hwf
    · rw [hf.2.1, h2]
    · rw [hprim3]; exact h6
    · rw [hstand3]; exact hwfs
    · rw [hstand3, pool_set_pool]
    · rw [hprim3, h7]
      show events (({ s with primary := s.standby } : core).pool s.standby) ++ _ = _
      rw [h0]
      rfl
  · right
    refine ⟨hj, t1, ?_, h2⟩
    rw [h1]
    simp

/-- The cascade: when every pending event is on a channel from which no path
has more than `m` edges, the drain loop with the re-raising `backends_notify`
ends after at most `m + 1` rounds with no event pending in the primary
collection. -/
theorem drain_cascade (ok : Nat → Nat → Bool × Bool) :
    ∀ (m fuel call : Nat) (s : core) (trace : List batch),
      map_wf s → collection_wf (s.pool s.primary) → collection_wf (s.pool s.standby) →
      (s.pool s.standby).n = 0 →
      (∀ ev ∈ events (s.pool s.primary), paths_from_le s.map m ev.1) →
      m + 1 ≤ fuel →
      ∃ x s1 tr, drain (notify_reraise ok) fuel call s trace = (x, s1, trace ++ tr) ∧
        (x = .quiescent ∨ x = .failed) ∧
        ((∀ i j, ok i j = (true, true)) → x = .quiescent) ∧
        (s1.pool s1.primary).n = 0 ∧ tr.length ≤ m + 1 ∧
        ((s.pool s.primary).n = 0 → tr = []) := by
  intro m
  induction m with
  | zero =>
    intro fuel call s trace hwf hp hs hs0 hev hfuel
    by_cases hn : (s.pool s.primary).n = 0
    · exact ⟨.quiescent, s, [], by rw [drain_done _ _ _ _ _ hn]; simp, Or.inl rfl,
        fun _ => rfl, hn, by simp, fun _ => rfl⟩
    · obtain ⟨fuel1, rfl⟩ : ∃ f, fuel = f + 1 := ⟨fuel - 1, by omega⟩
      rcases drain_reraise_round ok fuel1 call s trace hwf hp hs hs0 hn with
        ⟨s3, hd, _, _, hp3, _, _, hev3⟩ | ⟨⟨j, hj⟩, t1, hd, hfin⟩
      · have hnext : events (s3.pool s3.primary) = [] := by
          rw [hev3, List.flatMap_eq_nil_iff]
          intro ev hev1
          have hpf := hev ev hev1
          cases hl : lookup s.map ev.1 with
          | nil => rfl
          | cons d ds =>
            have := (paths_from_le_succ s.map 0 ev.1 d hpf (by rw [hl]; simp)).1
            omega
        have hn3 : (s3.pool s3.primary).n = 0 := by
          rw [← events_length _ hp3, hnext]; rfl
        refine ⟨.quiescent, s3, [events (s.pool s.primary)], ?_, Or.inl rfl, fun _ => rfl, hn3,
          by simp, fun h => absurd h hn⟩
        rw [hd, drain_done _ _ _ _ _ hn3]
      · refine ⟨.failed, t1, [events (s.pool s.primary)], hd, Or.inr rfl, ?_, hfin, by simp,
          fun h => absurd h hn⟩
        intro hall
        have := hall call j
        rw [Prod.ext_iff] at this
        rcases hj with hj | hj
        · rw [this.1] at hj; exact absurd hj (by simp)
        · rw [this.2] at hj; exact absurd hj (by simp)
  | succ m ih =>
    intro fuel call s trace hwf hp hs hs0 hev hfuel
    by_cases hn : (s.pool s.primary).n = 0
    · exact ⟨.quiescent, s, [], by rw [drain_done _ _ _ _ _ hn]; simp, Or.inl rfl,
        fun _ => rfl, hn, by simp, fun _ => rfl⟩
    · obtain ⟨fuel1, rfl⟩ : ∃ f, fuel = f + 1 := ⟨fuel - 1, by omega⟩
      rcases drain_reraise_round ok fuel1 call s trace hwf hp hs hs0 hn with
        ⟨s3, hd, hwf3, hmap3, hp3, hs3, hs03, hev3⟩ | ⟨⟨j, hj⟩, t1, hd, hfin⟩
      · have hnext : ∀ ev ∈ events (s3.pool s3.primary), paths_from_le s3.map m ev.1 := by
          rw [hev3, hmap3]
          intro ev1 hev1
          rcases List.mem_flatMap.1 hev1 with ⟨ev, hev0, hmem⟩
          rcases List.mem_map.1 hmem with ⟨d, hd, rfl⟩
          exact (paths_from_le_succ s.map (m + 1) ev.1 d (hev ev hev0) hd).2
        rcases ih fuel1 (call + 1) s3 (trace ++ [events (s.pool s.primary)]) hwf3 hp3 hs3 hs03
            hnext (by omega) with
          ⟨x, s1, tr, hd1, hx, hq, hfin, hlen, _⟩
        refine ⟨x, s1, events (s.pool s.primary) :: tr, ?_, hx, hq, hfin,
          by simp; omega, fun h => absurd h hn⟩
        rw [hd, hd1]
        simp
      · refine ⟨.failed, t1, [events (s.pool s.primary)], hd, Or.inr rfl, ?_, hfin, by simp,
          fun h => absurd h hn⟩
        intro hall
        have := hall call j
        rw [Prod.ext_iff] at this
        rcases hj with hj | hj
        · rw [this.1] at hj; exact absurd hj (by simp)
        · rw [this.2] at hj; exact absurd hj (by simp)

/-! ## The mapping graph -/

theorem source_of_edge (map : List channel_mapping) (c d : channel) (h : d ∈ lookup map c) :
    c ∈ map.map (fun e => e.from_) := by
  unfold lookup at h
  cases hf : map.find? (fun e => decide (e.from_ = c)) with
  | none => rw [hf] at h; simp at h
  | some e =>
    have h1 := List.find?_some hf
    have h2 := List.mem_of_find?_eq_some hf
    exact List.mem_map.2 ⟨e, h2, by simpa using h1⟩

/-- Every channel of a path but the last is the source of a mapping entry. -/
theorem path_sources (map : List channel_mapping) :
    ∀ p : List channel, is_path map p → ∀ x ∈ p.dropLast, x ∈ map.map (fun e => e.from_) := by
  intro p
  induction p with
  | nil => intro _ x hx; simp at hx
  | cons a rest ih =>
    intro hp x hx
    cases rest with
    | nil => simp at hx
    | cons b rest2 =>
      unfold is_path at hp ih
      rw [List.chain'_cons] at hp
      rw [List.dropLast_cons₂] at hx
      rcases List.mem_cons.1 hx with rfl | hx
      · exact source_of_edge map _ b hp.1
      · exact ih hp.2 x hx

/-- In an acyclic mapping graph no path has more edges than the table has entries. -/
theorem acyclic_bounded (map : List channel_mapping) (h : acyclic map) :
    ∀ p, is_path map p → p.length ≤ map.length + 1 := by
  intro p hp
  have hnd : p.dropLast.Nodup := (h p hp).sublist (List.dropLast_sublist p)
  have hsub : p.dropLast ⊆ map.map (fun e => e.from_) := fun x hx => path_sources map p hp x hx
  have hle := (List.subperm_of_subset hnd hsub).length_le
  simp only [List.length_dropLast, List.length_map] at hle
  omega

/-- A mapping graph whose paths are bounded has a longest path. -/
theorem longest_of_bounded (map : List channel_mapping) :
    ∀ b : Nat, (∀ p, is_path map p → p.length ≤ b + 1) → ∃ L, longest_path map L := by
  intro b
  induction b with
  | zero =>
    intro hb
    exact ⟨0, ⟨[0], by simp [is_path], rfl⟩, hb⟩
  | succ b ih =>
    intro hb
    by_cases hex : ∃ p, is_path map p ∧ p.length = b + 1 + 1
    · exact ⟨b + 1, hex, hb⟩
    · apply ih
      intro p hp
      have h1 := hb p hp
      have h2 : p.length ≠ b + 1 + 1 := fun h => hex ⟨p, hp, h⟩
      omega

/-- An acyclic mapping graph has a longest path. -/
theorem acyclic_longest (map : List channel_mapping) (h : acyclic map) :
    ∃ L, longest_path map L :=
  longest_of_bounded map map.length (acyclic_bounded map h)

/-- The edges of the table whose only entry maps channel 1 to channel 2. -/
theorem edge_example (x y : channel) : edge [⟨1, [2]⟩] x y ↔ x = 1 ∧ y = 2 := by
  unfold edge lookup
  by_cases hx : x = 1
  · subst hx; simp
  · have : ¬ (1 = x) := fun h => hx h.symm
    simp [List.find?, hx, this]

/-- The paths of the table whose only entry maps channel 1 to channel 2. -/
theorem path_example (p : List channel) (hp : is_path [⟨1, [2]⟩] p) :
    p.length ≤ 2 ∧ p.Nodup := by
  unfold is_path at hp
  match p, hp with
  | [], _ => simp
  | [_], _ => simp
  | [x, y], hp =>
    rw [List.chain'_cons] at hp
    rcases (edge_example x y).1 hp.1 with ⟨rfl, rfl⟩
    simp
  | x :: y :: z :: rest, hp =>
    rw [List.chain'_cons, List.chain'_cons] at hp
    have h1 := (edge_example x y).1 hp.1
    have h2 := (edge_example y z).1 hp.2.1
    exact absurd (h1.2.symm.trans h2.1) (by decide)

theorem acyclic_example : acyclic [⟨1, [2]⟩] := fun p hp => (path_example p hp).2

theorem longest_path_example : longest_path [⟨1, [2]⟩] 1 :=
  ⟨⟨[1, 2], List.chain'_cons.2 ⟨(edge_example 1 2).2 ⟨rfl, rfl⟩, List.chain'_singleton 2⟩, rfl⟩,
    fun p hp => (path_example p hp).1⟩

theorem longest_path_unique (map : List channel_mapping) (L L1 : Nat)
    (h : longest_path map L) (h1 : longest_path map L1) : L = L1 := by
  rcases h with ⟨⟨p, hp, hpl⟩, hb⟩
  rcases h1 with ⟨⟨q, hq, hql⟩, hb1⟩
  have := hb q hq
  have := hb1 p hp
  omega

/-- The channels `mm_channel_event` enqueues are destinations of the mapping
table: when every pending event of the primary collection is on a destination,
so is every pending event after a call that returns 0. -/
theorem enqueued_channels_are_destinations (ok_channel ok_value : Bool) (c : channel)
    (v : channel_value) (t t1 : core) (hwf : map_wf t)
    (hp : collection_wf (t.pool t.primary))
    (hdest : ∀ ev ∈ events (t.pool t.primary), ∃ x, ev.1 ∈ lookup t.map x)
    (h : mm_channel_event ok_channel ok_value c v t = some (0, t1)) :
    ∀ ev ∈ events (t1.pool t1.primary), ∃ x, ev.1 ∈ lookup t1.map x := by
  rcases mm_channel_event_step ok_channel ok_value c v t hwf hp with
    ⟨c1, hr, hev, _⟩ | ⟨_, ch, va, hr⟩
  · rw [hr] at h
    simp only [Option.some.injEq, Prod.mk.injEq, true_and] at h
    subst h
    have hf := set_pool_frame t t.primary c1
    rw [hf.1, pool_set_pool, hf.2.1, hev]
    intro ev hmem
    rcases List.mem_append.1 hmem with hold | hnew
    · exact hdest ev hold
    · rcases List.mem_map.1 hnew with ⟨d, hd, rfl⟩
      exact ⟨c, hd⟩
  · rw [hr] at h
    simp at h

/-- C5: cascade termination.  For an acyclic mapping graph, with `L` the number
of edges of its longest path (the path has `L + 1` channels), and every initial
batch in the primary collection (the standby collection holding no event, as at
every entry of the drain loop of `main`), the drain loop with the re-raising
`backends_notify` ends (normally, or through `bail` when a `realloc` fails; it
ends normally when every `realloc` succeeds) with the count of the primary
collection 0, after at most `L + 1` calls of `backends_notify`, the length of
the longest path counted in channels; and after at most `L` calls, its length
counted in edges, when every channel of the initial batch is a destination in
the mapping table, as is every channel that `mm_channel_event` enqueues
(`enqueued_channels_are_destinations`), the only function that writes to the
event collections. -/
theorem drain_cascade_terminates (ok : Nat → Nat → Bool × Bool) (s : core)
    (hwf : map_wf s) (hp : collection_wf (s.pool s.primary))
    (hs : collection_wf (s.pool s.standby)) (hs0 : (s.pool s.standby).n = 0)
    (hacyc : acyclic s.map) :
    ∃ L, longest_path s.map L ∧ ∀ fuel, L + 1 ≤ fuel →
      ∃ x s1 trace, drain (notify_reraise ok) fuel 0 s [] = (x, s1, trace) ∧
        (x = .quiescent ∨ x = .failed) ∧
        ((∀ i j, ok i j = (true, true)) → x = .quiescent) ∧
        (s1.pool s1.primary).n = 0 ∧ trace.length ≤ L + 1 ∧
        ((∀ ev ∈ events (s.pool s.primary), ∃ c, ev.1 ∈ lookup s.map c) →
          trace.length ≤ L) := by
  rcases acyclic_longest s.map hacyc with ⟨L, hL⟩
  refine ⟨L, hL, ?_⟩
  intro fuel hfuel
  have hall : ∀ c, paths_from_le s.map L c := by
    intro c p hpath
    have := hL.2 (c :: p) hpath
    simpa using this
  by_cases hdest : ∀ ev ∈ events (s.pool s.primary), ∃ c, ev.1 ∈ lookup s.map c
  · have hshort : ∀ ev ∈ events (s.pool s.primary), 1 ≤ L ∧ paths_from_le s.map (L - 1) ev.1 := by
      intro ev hev
      rcases hdest ev hev with ⟨c, hc⟩
      exact paths_from_le_succ s.map L c ev.1 (hall c) hc
    cases L with
    | zero =>
      have hempty : (s.pool s.primary).n = 0 := by
        rw [← events_length _ hp]
        cases hE : events (s.pool s.primary) with
        | nil => rfl
        | cons ev evs =>
          have := (hshort ev (by rw [hE]; simp)).1
          omega
      rcases drain_cascade ok 0 fuel 0 s [] hwf hp hs hs0 (fun ev _ => hall ev.1) hfuel with
        ⟨x, s1, tr, hd, hx, hq, hfin, hlen, hnil⟩
      refine ⟨x, s1, tr, by simpa using hd, hx, hq, hfin, hlen, fun _ => ?_⟩
      rw [hnil hempty]; simp
    | succ L1 =>
      rcases drain_cascade ok L1 fuel 0 s [] hwf hp hs hs0
          (fun ev hev => by simpa using (hshort ev hev).2) (by omega) with
        ⟨x, s1, tr, hd, hx, hq, hfin, hlen, _⟩
      exact ⟨x, s1, tr, by simpa using hd, hx, hq, hfin, by omega, fun _ => hlen⟩
  · rcases drain_cascade ok L fuel 0 s [] hwf hp hs hs0 (fun ev _ => hall ev.1) hfuel with
      ⟨x, s1, tr, hd, hx, hq, hfin, hlen, _⟩
    exact ⟨x, s1, tr, by simpa using hd, hx, hq, hfin, hlen, fun h => absurd h hdest⟩

/-- An event on channel 1 in the table that maps channel 1 to channel 2: the
batch `mm_channel_event` leaves is drained in one round, the number of edges
of the longest path. -/
theorem drain_cascade_terminates_witness :
    mm_channel_event true true 1 5 { core.init with mappings := 1, map := [⟨1, [2]⟩] }
      = some (0, enqueued_example) ∧
    ∃ L, longest_path enqueued_example.map L ∧
      ∃ x s1 trace,
        drain (notify_reraise fun _ _ => (true, true)) (L + 1) 0 enqueued_example []
          = (x, s1, trace) ∧
        x = .quiescent ∧ (s1.pool s1.primary).n = 0 ∧ trace.length ≤ L := by
  refine ⟨by decide, ?_⟩
  obtain ⟨L, hL, h⟩ := drain_cascade_terminates (fun _ _ => (true, true)) enqueued_example
    (by decide) (by decide) (by decide) (by decide) acyclic_example
  obtain ⟨x, s1, trace, hd, _, hq, hfin, _, hdest⟩ := h (L + 1) (Nat.le_refl _)
  refine ⟨L, hL, x, s1, trace, hd, hq (fun _ _ => rfl), hfin, hdest ?_⟩
  intro ev hev
  have hev2 : ev = (2, 5) := by
    simpa [events, enqueued_example, core.pool, core.init] using hev
  subst hev2
  exact ⟨1, by decide⟩

/-! ## The function `main`: exit status and teardown -/

/-- The event loop is left with `wait_error` only when `select` has reported an error. -/
theorem event_loop_wait_error (env : collaborators) (drain_fuel : Nat) :
    ∀ (fuel k : Nat) (s s1 : core),
      event_loop env drain_fuel fuel k s = (.wait_error, s1) →
      ∃ j, env.shutdown_requested j = false ∧ env.select j < 0 := by
  intro fuel
  induction fuel with
  | zero =>
    intro k s s1 h
    simp only [event_loop] at h
    split at h <;> simp at h
  | succ fuel ih =>
    intro k s s1 h
    simp only [event_loop] at h
    by_cases hsd : env.shutdown_requested k = true
    · simp [hsd] at h
    · by_cases hsel : env.select k < 0
      · exact ⟨k, by simpa using hsd, hsel⟩
      · simp only [hsd, hsel, if_false] at h
        cases hh : env.backends_handle k s with
        | none => rw [hh] at h; simp at h
        | some r =>
          obtain ⟨rv, t1⟩ := r
          rw [hh] at h
          simp only at h
          by_cases hrv : rv = 0
          · simp only [hrv, ne_eq, not_true_eq_false, if_false] at h
            cases hd : drain (env.backends_notify k) drain_fuel 0 t1 [] with
            | mk x rest =>
              obtain ⟨t2, tr⟩ := rest
              rw [hd] at h
              cases x
              · exact ih _ _ _ h
              · simp at h
              · simp at h
              · simp at h
          · simp [hrv] at h

/-- C11, as the code has it: a wait error is not a failure exit.  In every run,
an iteration of the event loop in which `select` reports an error leaves the
loop at once (line 268, `break`) with the state as it is; a run of `main` exits
with `EXIT_SUCCESS` exactly when start-up succeeded and the event loop was left
by the shutdown flag or by a wait error, and then the teardown of `bail` has
run; in particular a backend handle failure and a backend notify failure exit
with `EXIT_FAILURE`. -/
theorem main_exit_status (env : collaborators) (fuel drain_fuel : Nat) :
    (∀ k s, env.shutdown_requested k = false → env.select k < 0 →
      event_loop env drain_fuel (fuel + 1) k s = (.wait_error, s)) ∧
    (∀ rv teardown, main env fuel drain_fuel = .exited rv teardown →
      (rv = EXIT_SUCCESS ↔
        ∃ s1 s2, env.plugins_load = 0 ∧ env.config_read core.init = some (0, s1) ∧
          env.backends_start s1 = some (0, s2) ∧ env.calloc_ok = true ∧
          ((event_loop env drain_fuel fuel 0 s2).1 = .shutdown ∨
            (event_loop env drain_fuel fuel 0 s2).1 = .wait_error)) ∧
      (rv = EXIT_SUCCESS → teardown = bail) ∧
      (rv = EXIT_SUCCESS ∨ rv = EXIT_FAILURE)) := by
  constructor
  · intro k s hsd hsel
    simp [event_loop, hsd, hsel]
  · intro rv teardown h
    unfold main at h
    by_cases hpl : env.plugins_load = 0
    swap
    · simp only [ne_eq, hpl, not_false_eq_true, if_true, run_result.exited.injEq] at h
      rw [← h.1]
      exact ⟨⟨fun h0 => absurd h0 (by decide), fun ⟨_, _, h0, _⟩ => absurd h0 hpl⟩,
        fun h0 => absurd h0 (by decide), Or.inr rfl⟩
    simp only [ne_eq, hpl, not_true_eq_false, if_false] at h
    obtain ⟨r1, hcfg⟩ : ∃ r, env.config_read core.init = r := ⟨_, rfl⟩
    rw [hcfg] at h
    cases r1 with
    | none => simp at h
    | some r1 =>
      obtain ⟨rv1, s1⟩ := r1
      simp only at h
      by_cases hrv1 : rv1 = 0
      swap
      · simp only [hrv1, not_false_eq_true, if_true, run_result.exited.injEq] at h
        rw [← h.1]
        refine ⟨⟨fun h0 => absurd h0 (by decide), ?_⟩, fun h0 => absurd h0 (by decide),
          Or.inr rfl⟩
        rintro ⟨t1, _, _, hc, _⟩
        rw [hcfg] at hc
        simp only [Option.some.injEq, Prod.mk.injEq] at hc
        exact absurd hc.1 hrv1
      subst hrv1
      simp only [not_true_eq_false, if_false] at h
      obtain ⟨r2, hbs⟩ : ∃ r, env.backends_start s1 = r := ⟨_, rfl⟩
      rw [hbs] at h
      cases r2 with
      | none => simp at h
      | some r2 =>
        obtain ⟨rv2, s2⟩ := r2
        simp only at h
        by_cases hrv2 : rv2 = 0
        swap
        · simp only [hrv2, not_false_eq_true, if_true, run_result.exited.injEq] at h
          rw [← h.1]
          refine ⟨⟨fun h0 => absurd h0 (by decide), ?_⟩, fun h0 => absurd h0 (by decide),
            Or.inr rfl⟩
          rintro ⟨t1, t2, _, hc, hb, _⟩
          rw [hcfg] at hc
          simp only [Option.some.injEq, Prod.mk.injEq, true_and] at hc
          rw [← hc, hbs] at hb
          simp only [Option.some.injEq, Prod.mk.injEq] at hb
          exact absurd hb.1 hrv2
        subst hrv2
        simp only [not_true_eq_false, if_false] at h
        by_cases hca : env.calloc_ok = true
        swap
        · simp only [hca, if_true, run_result.exited.injEq] at h
          rw [← h.1]
          exact ⟨⟨fun h0 => absurd h0 (by decide), fun ⟨_, _, _, _, _, h0, _⟩ => absurd h0 hca⟩,
            fun h0 => absurd h0 (by decide), Or.inr rfl⟩
        simp only [hca, Bool.true_eq_false, if_false] at h
        have hex : ∀ x, (event_loop env drain_fuel fuel 0 s2).1 = x →
            ((∃ t1 t2, env.plugins_load = 0 ∧ env.config_read core.init = some (0, t1) ∧
              env.backends_start t1 = some (0, t2) ∧ env.calloc_ok = true ∧
              ((event_loop env drain_fuel fuel 0 t2).1 = .shutdown ∨
                (event_loop env drain_fuel fuel 0 t2).1 = .wait_error)) ↔
              (x = .shutdown ∨ x = .wait_error)) := by
          intro x hx
          constructor
          · rintro ⟨t1, t2, _, hc, hb, _, hl⟩
            rw [hcfg] at hc
            simp only [Option.some.injEq, Prod.mk.injEq, true_and] at hc
            rw [← hc, hbs] at hb
            simp only [Option.some.injEq, Prod.mk.injEq, true_and] at hb
            rw [← hb, hx] at hl
            exact hl
          · intro hl
            exact ⟨s1, s2, hpl, hcfg, hbs, hca, by rw [hx]; exact hl⟩
        obtain ⟨r3, hloop⟩ : ∃ r, event_loop env drain_fuel fuel 0 s2 = r := ⟨_, rfl⟩
        rw [hloop] at h
        obtain ⟨x, s3⟩ := r3
        have hx := hex x (by rw [hloop])
        cases x
        · simp only [run_result.exited.injEq] at h
          obtain ⟨h1, h2⟩ := h
          subst h1 h2
          rw [hx]; simp
        · simp only [run_result.exited.injEq] at h
          obtain ⟨h1, h2⟩ := h
          subst h1 h2
          rw [hx]; simp
        · simp only [run_result.exited.injEq] at h
          obtain ⟨h1, h2⟩ := h
          subst h1 h2
          rw [hx]; simp [EXIT_SUCCESS, EXIT_FAILURE]
        · simp only [run_result.exited.injEq] at h
          obtain ⟨h1, h2⟩ := h
          subst h1 h2
          rw [hx]; simp [EXIT_SUCCESS, EXIT_FAILURE]
        · simp at h
        · simp at h

/-- A wait error in the first iteration of a run whose start-up succeeds. -/
theorem main_exit_status_witness :
    event_loop wait_error_run 1 (0 + 1) 0 core.init = (.wait_error, core.init) :=
  (main_exit_status wait_error_run 0 1).1 0 core.init rfl (by decide)

/-- The exit status of C11 as stated fails: in a run whose start-up succeeds
and in which `select` reports an error in the first iteration, `main` makes
the teardown calls of `bail` and returns `EXIT_SUCCESS`, which is 0. -/
theorem wait_error_exits_with_success :
    wait_error_run.select 0 < 0 ∧
    main wait_error_run 1 1 = .exited EXIT_SUCCESS bail ∧ EXIT_SUCCESS = 0 := by
  refine ⟨by decide, by decide, rfl⟩

/-- C12, as the code has it: the teardown of every run of `main` that exits.
On the configuration read failure path (lines 226-231) the calls are
`backends_stop`, `channels_free`, `instances_free`, `map_free`, `fds_free`,
`plugins_close`, once each in this order, and `event_free` is not called; on
every other exit path (plugin load failure, backend start failure, buffer
allocation failure, shutdown, wait error, backend handle or notify failure)
they are the calls of `bail`: the same with `event_free` between `fds_free` and
`plugins_close`, once each. -/
theorem main_teardown (env : collaborators) (fuel drain_fuel : Nat) (rv : Int)
    (teardown : List teardown_call) (h : main env fuel drain_fuel = .exited rv teardown) :
    ((env.plugins_load = 0 ∧ ∃ rv1 s1, env.config_read core.init = some (rv1, s1) ∧ rv1 ≠ 0) →
      teardown = [.backends_stop, .channels_free, .instances_free, .map_free, .fds_free,
        .plugins_close]) ∧
    (¬ (env.plugins_load = 0 ∧ ∃ rv1 s1, env.config_read core.init = some (rv1, s1) ∧ rv1 ≠ 0) →
      teardown = [.backends_stop, .channels_free, .instances_free, .map_free, .fds_free,
        .event_free, .plugins_close]) := by
  unfold main at h
  by_cases hpl : env.plugins_load = 0
  swap
  · simp only [ne_eq, hpl, not_false_eq_true, if_true, run_result.exited.injEq] at h
    exact ⟨fun h0 => absurd h0.1 hpl, fun _ => h.2.symm⟩
  simp only [ne_eq, hpl, not_true_eq_false, if_false] at h
  obtain ⟨r1, hcfg⟩ : ∃ r, env.config_read core.init = r := ⟨_, rfl⟩
  rw [hcfg] at h
  cases r1 with
  | none => simp at h
  | some r1 =>
    obtain ⟨rv1, s1⟩ := r1
    simp only at h
    by_cases hrv1 : rv1 = 0
    swap
    · simp only [hrv1, not_false_eq_true, if_true, run_result.exited.injEq] at h
      exact ⟨fun _ => h.2.symm, fun h0 => absurd ⟨hpl, rv1, s1, hcfg, hrv1⟩ h0⟩
    subst hrv1
    have hnot : ¬ (env.plugins_load = 0 ∧
        ∃ rv1 t1, env.config_read core.init = some (rv1, t1) ∧ rv1 ≠ 0) := by
      rintro ⟨_, rv1, t1, hc, hne⟩
      rw [hcfg] at hc
      simp only [Option.some.injEq, Prod.mk.injEq] at hc
      exact hne hc.1.symm
    refine ⟨fun h0 => absurd h0 hnot, fun _ => ?_⟩
    simp only [not_true_eq_false, if_false] at h
    obtain ⟨r2, hbs⟩ : ∃ r, env.backends_start s1 = r := ⟨_, rfl⟩
    rw [hbs] at h
    cases r2 with
    | none => simp at h
    | some r2 =>
      obtain ⟨rv2, s2⟩ := r2
      simp only at h
      by_cases hrv2 : rv2 = 0
      swap
      · simp only [hrv2, not_false_eq_true, if_true, run_result.exited.injEq] at h
        exact h.2.symm
      subst hrv2
      simp only [not_true_eq_false, if_false] at h
      by_cases hca : env.calloc_ok = true
      swap
      · simp only [hca, if_true, run_result.exited.injEq] at h
        exact h.2.symm
      simp only [hca, Bool.true_eq_false, if_false] at h
      obtain ⟨r3, hloop⟩ : ∃ r, event_loop env drain_fuel fuel 0 s2 = r := ⟨_, rfl⟩
      rw [hloop] at h
      obtain ⟨x, s3⟩ := r3
      cases x <;> simp only [run_result.exited.injEq] at h <;>
        first
        | exact h.2.symm
        | exact absurd h (by simp)

/-- The teardown of a run in which `select` reports an error. -/
theorem main_teardown_witness :
    main wait_error_run 1 1 = .exited EXIT_SUCCESS bail ∧
    bail = [.backends_stop, .channels_free, .instances_free, .map_free, .fds_free,
      .event_free, .plugins_close] :=
  ⟨by decide, (main_teardown wait_error_run 1 1 EXIT_SUCCESS bail (by decide)).2 (by
    rintro ⟨_, rv1, s1, hc, hne⟩
    simp only [wait_error_run, Option.some.injEq, Prod.mk.injEq] at hc
    exact hne hc.1.symm)⟩

/-- The teardown of C12 as stated fails on the configuration read failure
path: `main` returns `EXIT_FAILURE` after six teardown calls, and `event_free`
is not among them. -/
theorem config_failure_skips_event_free :
    main config_failure_run 1 1 = .exited EXIT_FAILURE
      [.backends_stop, .channels_free, .instances_free, .map_free, .fds_free, .plugins_close] ∧
    teardown_call.event_free ∉
      ([.backends_stop, .channels_free, .instances_free, .map_free, .fds_free, .plugins_close] :
        List teardown_call) := by
  refine ⟨by decide, by decide⟩

/-! ## Teardown of the table and of the registry -/

theorem map_free_loop_at (rest : List channel_mapping) :
    ∀ pre : List channel_mapping,
      map_free_loop (pre ++ rest) rest.length pre.length = some (rest.map (fun e => e.to_)) := by
  induction rest with
  | nil => intro pre; rfl
  | cons x xs ih =>
    intro pre
    have hx : (pre ++ x :: xs)[pre.length]? = some x := getElem?_split pre xs x
    have := ih (pre ++ [x])
    simp only [List.append_assoc, List.singleton_append, List.length_append,
      List.length_singleton] at this
    simp only [List.length_cons, map_free_loop, hx, this, List.map_cons]

/-- The descriptors `fds_free` closes: those of the slots with a descriptor
that is not negative, one call of `close` per such slot, in slot order. -/
theorem fds_free_loop_at (rest : List managed_fd) :
    ∀ pre : List managed_fd,
      ∃ block, fds_free_loop (pre ++ rest) rest.length pre.length
        = some (((rest.filter (fun e => decide (e.fd ≥ 0))).map (fun e => e.fd)), block) := by
  induction rest with
  | nil => intro pre; exact ⟨_, rfl⟩
  | cons x xs ih =>
    intro pre
    have hx : (pre ++ x :: xs)[pre.length]? = some x := getElem?_split pre xs x
    simp only [List.length_cons, fds_free_loop, hx]
    by_cases hfd : x.fd ≥ 0
    · rcases ih (pre ++ [{ x with fd := -1 }]) with ⟨block, hb⟩
      simp only [List.append_assoc, List.singleton_append, List.length_append,
        List.length_singleton] at hb
      simp only [hfd, if_true, set_split, hb, List.filter_cons, decide_True, List.map_cons]
      exact ⟨block, rfl⟩
    · rcases ih (pre ++ [x]) with ⟨block, hb⟩
      simp only [List.append_assoc, List.singleton_append, List.length_append,
        List.length_singleton] at hb
      simp only [hfd, if_false, hb, List.filter_cons, decide_False]
      exact ⟨block, by simp⟩

/-- C13, as the code has it: teardown completeness.  On a well-formed state
`map_free` and then `fds_free` return and leave a mapping table with zero
entries and a registry with zero slots; the calls of `close` made by
`fds_free` are exactly one per slot whose descriptor is not negative, with
that descriptor, in slot order.  So the set of closed descriptors is the set of
descriptors of those slots, and a descriptor is closed as many times as there
are such slots holding it: once when no two of them hold the same descriptor. -/
theorem teardown_completeness (s : core) (hm : map_wf s) (hf : fd_wf s) :
    ∃ s1 closed s2, map_free s = some s1 ∧ fds_free s1 = some (closed, s2) ∧
      s2.mappings = 0 ∧ s2.map = [] ∧ s2.fds = 0 ∧ s2.fd = [] ∧
      closed = (s.fd.filter (fun e => decide (e.fd ≥ 0))).map (fun e => e.fd) ∧
      (∀ d, d ∈ closed ↔ ∃ e ∈ s.fd, e.fd ≥ 0 ∧ e.fd = d) ∧
      ((s.fd.filter (fun e => decide (e.fd ≥ 0))).Pairwise (fun x y => x.fd ≠ y.fd) →
        closed.Nodup) := by
  unfold map_wf at hm
  unfold fd_wf at hf
  have h1 := map_free_loop_at s.map []
  simp only [List.nil_append, List.length_nil] at h1
  rcases fds_free_loop_at s.fd [] with ⟨block, h2⟩
  simp only [List.nil_append, List.length_nil] at h2
  refine ⟨{ s with mappings := 0, map := [] },
    (s.fd.filter (fun e => decide (e.fd ≥ 0))).map (fun e => e.fd),
    { s with mappings := 0, map := [], fds := 0, fd := [] }, ?_, ?_, rfl, rfl, rfl, rfl, rfl,
    ?_, fun h => List.pairwise_map.2 h⟩
  · simp only [map_free, hm, h1]
  · simp only [fds_free, hf, h2]
  · intro d
    simp only [List.mem_map, List.mem_filter, decide_eq_true_eq]
    constructor
    · rintro ⟨e, ⟨he, hge⟩, hd⟩
      exact ⟨e, he, hge, hd⟩
    · rintro ⟨e, he, hge, hd⟩
      exact ⟨e, ⟨he, hge⟩, hd⟩

/-- Teardown of a table with one entry and a registry with a free and a managed slot. -/
theorem teardown_completeness_witness :
    ∃ s1 closed s2,
      map_free { core.init with mappings := 1, map := [⟨1, [2]⟩], fds := 2,
                                fd := [⟨-1, none, none⟩, ⟨5, some 1, none⟩] } = some s1 ∧
      fds_free s1 = some (closed, s2) ∧
      s2.mappings = 0 ∧ s2.map = [] ∧ s2.fds = 0 ∧ s2.fd = [] ∧
      closed = [5] ∧
      (∀ d, d ∈ closed ↔ ∃ e ∈ [(⟨-1, none, none⟩ : managed_fd), ⟨5, some 1, none⟩],
        e.fd ≥ 0 ∧ e.fd = d) ∧
      ((([(⟨-1, none, none⟩ : managed_fd), ⟨5, some 1, none⟩]).filter
          (fun e => decide (e.fd ≥ 0))).Pairwise (fun x y => x.fd ≠ y.fd) → closed.Nodup) :=
  teardown_completeness
    { core.init with mappings := 1, map := [⟨1, [2]⟩], fds := 2,
                     fd := [⟨-1, none, none⟩, ⟨5, some 1, none⟩] } (by decide) (by decide)

/-- The count of C13 as stated fails.  Registering descriptor 3 for backend 1
and for backend 2 gives a registry that satisfies its invariant and holds
descriptor 3 in two slots; `fds_free` then closes descriptor 3 twice. -/
theorem shared_descriptor_closed_twice :
    ((mm_manage_fd (fun n => if n = "a" then some 1 else some 2) true 3 "a" 1 none
        core.init).bind fun r =>
      mm_manage_fd (fun n => if n = "a" then some 1 else some 2) true 3 "b" 1 none r.2)
      = some (0, shared_descriptor) ∧
    fd_wf shared_descriptor ∧ fd_inv shared_descriptor ∧
    fds_free shared_descriptor = some ([3, 3], { shared_descriptor with fds := 0, fd := [] }) ∧
    ([3, 3] : List Int).count 3 = 2 := by
  refine ⟨by decide, by decide, by decide, by decide, by decide⟩

/-! ## Allocation failure in `mm_map_channel`, growth of the event collections -/

theorem lookup_append_other (map : List channel_mapping) (e : channel_mapping) (x : channel)
    (h : e.from_ ≠ x) : lookup (map ++ [e]) x = lookup map x := by
  unfold lookup
  rw [List.find?_append]
  cases hf : map.find? (fun e => decide (e.from_ = x)) with
  | none => simp [List.find?_cons, h]
  | some y => simp

theorem lookup_replace_other (pre post : List channel_mapping) (e e1 : channel_mapping)
    (x : channel) (h : e.from_ ≠ x) (h1 : e1.from_ = e.from_) :
    lookup (pre ++ e1 :: post) x = lookup (pre ++ e :: post) x := by
  unfold lookup
  rw [List.find?_append, List.find?_append]
  cases hf : pre.find? (fun e => decide (e.from_ = x)) with
  | none => simp [List.find?_cons, h, h1]
  | some y => simp

/-- C14, as the code has it: failure of the `realloc` of a destination list
(line 63).  On a well-formed table, when the target is not yet mapped and the
`realloc` of `map`, if one is needed, succeeds, `mm_map_channel` returns 1;
and whenever it returns 1 in this way the table is again well formed, the
sources of the entries are the old ones, followed by `from` when its entry has
just been created, the destination list of `from` is empty, whether its entry
is new or not, and every other source keeps its destinations. -/
theorem mm_map_channel_to_failure (ok_map : Bool) (from_ to_ : channel) (s : core)
    (hwf : map_wf s) (hok : ok_map = true ∨ ∃ e ∈ s.map, e.from_ = from_) :
    (to_ ∉ lookup s.map from_ →
      ∃ s1, mm_map_channel ok_map false from_ to_ s = some (1, s1)) ∧
    ∀ s1, mm_map_channel ok_map false from_ to_ s = some (1, s1) →
      map_wf s1 ∧ lookup s1.map from_ = [] ∧
      (∀ x, x ≠ from_ → lookup s1.map x = lookup s.map x) ∧
      (s1.map.map (fun e => e.from_) = s.map.map (fun e => e.from_) ∨
        s1.map.map (fun e => e.from_) = s.map.map (fun e => e.from_) ++ [from_]) := by
  rcases split_source from_ s.map with habs | ⟨pre, e, post, hmap, hpre, he⟩
  · have hm : ok_map = true := by
      rcases hok with h | ⟨e, he, hef⟩
      · exact h
      · exact absurd hef (habs e he)
    subst hm
    rw [mm_map_channel_absent true false from_ to_ s hwf habs]
    simp only [if_true, Bool.false_eq_true, if_false]
    refine ⟨fun _ => ⟨_, rfl⟩, ?_⟩
    intro s1 h
    simp only [Option.some.injEq, Prod.mk.injEq, true_and] at h
    subst h
    refine ⟨?_, ?_, ?_, Or.inr (by simp)⟩
    · unfold map_wf at *; simp [hwf]
    · exact lookup_found _ from_ s.map [] ⟨from_, []⟩ rfl habs rfl
    · intro x hx
      exact lookup_append_other s.map ⟨from_, []⟩ x (fun h => hx h.symm)
  · rw [mm_map_channel_found ok_map false from_ to_ s pre post e hwf hmap hpre he]
    have hl : lookup s.map from_ = e.to_ := lookup_found s.map from_ pre post e hmap hpre he
    constructor
    · intro hnot
      rw [hl] at hnot
      simp only [hnot, if_false, Bool.false_eq_true]
      exact ⟨_, rfl⟩
    · intro s1 h
      by_cases hin : to_ ∈ e.to_
      · simp [hin] at h
      · simp only [hin, if_false, Bool.false_eq_true, Option.some.injEq, Prod.mk.injEq,
          true_and] at h
        subst h
        refine ⟨?_, ?_, ?_, Or.inl (by simp [hmap])⟩
        · unfold map_wf at *; simp [hwf, hmap]
        · exact lookup_found _ from_ pre post { e with to_ := [] } rfl hpre he
        · intro x hx
          show lookup (pre ++ { e with to_ := [] } :: post) x = lookup s.map x
          rw [hmap]
          exact lookup_replace_other pre post e _ x (by rw [he]; exact fun h => hx h.symm) rfl

/-- Mapping channel 1, already mapped to 2, to channel 3 when the `realloc` fails. -/
theorem mm_map_channel_to_failure_witness :
    lookup ({ core.init with mappings := 1, map := [⟨1, []⟩] } : core).map 1 = [] :=
  (((mm_map_channel_to_failure false 1 3 { core.init with mappings := 1, map := [⟨1, [2]⟩] }
    (by decide) (Or.inr ⟨⟨1, [2]⟩, by simp, rfl⟩)).2)
    { core.init with mappings := 1, map := [⟨1, []⟩] } (by decide)).2.1

/-- The state of C14 as stated fails for an existing entry: when channel 1 is
mapped to channel 2 and the `realloc` of line 63 fails in
`mm_map_channel(1, 3)`, the call returns 1 and the entry of channel 1, which
is not new, has lost its destination. -/
theorem failed_map_drops_destinations :
    mm_map_channel true false 1 3 { core.init with mappings := 1, map := [⟨1, [2]⟩] }
      = some (1, { core.init with mappings := 1, map := [⟨1, []⟩] }) ∧
    lookup ({ core.init with mappings := 1, map := [⟨1, [2]⟩] } : core).map 1 = [2] ∧
    lookup ({ core.init with mappings := 1, map := [⟨1, []⟩] } : core).map 1 = [] := by
  refine ⟨by decide, by decide, by decide⟩

/-- Failure of the `realloc` of `map` (line 46) when the table has an entry:
`map` is `NULL` while `mappings` is still 1. -/
theorem failed_map_realloc_loses_table :
    mm_map_channel false true 4 5 { core.init with mappings := 1, map := [⟨1, [2]⟩] }
      = some (1, { core.init with mappings := 1, map := [] }) ∧
    ¬ map_wf { core.init with mappings := 1, map := [] } := by
  refine ⟨by decide, by decide⟩

/-- C16: events are not deduplicated within a batch.  For channels `a` and `b`
both mapped to `c` (all three distinct), from the initial state, the events
`a = v1` and then `b = v2` raised before the drain are handed to
`backends_notify` in one batch, in which `c` occurs twice, once per source
event and in the order in which the source events were raised. -/
theorem batch_keeps_duplicates (a b c : channel) (v1 v2 : channel_value) (notify : notify_fn)
    (fuel : Nat) (hab : a ≠ b) (hac : a ≠ c) (hbc : b ≠ c)
    (hnotify : ∀ call secondary n s, ∃ ok evs, (∀ ev ∈ evs, ev.1 = c) ∧
      notify call secondary n s = raise_events ok evs 0 s) :
    ∃ s1 s2 s3 s4 s5,
      mm_map_channel true true a c core.init = some (0, s1) ∧
      mm_map_channel true true b c s1 = some (0, s2) ∧
      mm_channel_event true true a v1 s2 = some (0, s3) ∧
      mm_channel_event true true b v2 s3 = some (0, s4) ∧
      drain notify (fuel + 1) 0 s4 [] = (.quiescent, s5, [[(c, v1), (c, v2)]]) := by
  have hba : ¬ b = a := fun h => hab h.symm
  refine ⟨{ core.init with mappings := 1, map := [⟨a, [c]⟩] },
    { core.init with mappings := 2, map := [⟨a, [c]⟩, ⟨b, [c]⟩] },
    { core.init with mappings := 2, map := [⟨a, [c]⟩, ⟨b, [c]⟩],
                     event_pool0 := ⟨1, 1, [c], [v1]⟩ },
    { core.init with mappings := 2, map := [⟨a, [c]⟩, ⟨b, [c]⟩],
                     event_pool0 := ⟨2, 2, [c, c], [v1, v2]⟩ },
    { core.init with mappings := 2, map := [⟨a, [c]⟩, ⟨b, [c]⟩],
                     event_pool0 := ⟨2, 0, [c, c], [v1, v2]⟩, primary := 1 },
    ?_, ?_, ?_, ?_, ?_⟩
  · simp [mm_map_channel, find_source, scan, core.init, realloc, map_destination]
  · simp [mm_map_channel, find_source, scan, core.init, realloc, map_destination, hab]
  · simp [mm_channel_event, find_source, scan, core.init, core.pool, core.set_pool,
      enqueue_all, enqueue, realloc]
  · simp [mm_channel_event, find_source, scan, core.init, core.pool, core.set_pool,
      enqueue_all, enqueue, realloc, hab]
  · rcases hnotify 0 0 2
        { core.init with mappings := 2, map := [⟨a, [c]⟩, ⟨b, [c]⟩],
                         event_pool0 := ⟨2, 2, [c, c], [v1, v2]⟩, primary := 1 } with
      ⟨ok, evs, hevs, hn⟩
    have hraise := raise_events_unmapped ok
      { core.init with mappings := 2, map := [⟨a, [c]⟩, ⟨b, [c]⟩],
                       event_pool0 := ⟨2, 2, [c, c], [v1, v2]⟩, primary := 1 }
      (by simp [map_wf, core.init]) evs 0
      (by
        intro ev hev x hx
        simp only [core.init, List.mem_cons, List.mem_singleton, List.not_mem_nil,
          or_false] at hx
        rw [hevs ev hev]
        rcases hx with hx | hx
        · subst hx; exact hac
        · subst hx; exact hbc)
    rw [hraise] at hn
    simp only [core.init] at hn
    cases fuel <;>
      simp [drain, swap_collectors, core.pool, core.set_pool, core.init, hn, events]

/-- Channels 1 and 2 mapped to channel 3, with the events 1 = 10 and 2 = 20. -/
theorem batch_keeps_duplicates_witness :
    ∃ s1 s2 s3 s4 s5,
      mm_map_channel true true 1 3 core.init = some (0, s1) ∧
      mm_map_channel true true 2 3 s1 = some (0, s2) ∧
      mm_channel_event true true 1 10 s2 = some (0, s3) ∧
      mm_channel_event true true 2 20 s3 = some (0, s4) ∧
      drain (fun _ _ _ s => some (0, s)) (0 + 1) 0 s4 []
        = (.quiescent, s5, [[(3, 10), (3, 20)]]) :=
  batch_keeps_duplicates 1 2 3 10 20 (fun _ _ _ s => some (0, s)) 0
    (by decide) (by decide) (by decide)
    (fun _ _ _ _ => ⟨fun _ => (true, true), [], by simp, rfl⟩)

/-- C20: a successful `mm_map_channel(from, to)` changes only the entry for
`from`.  Every other source channel has the same destination list before and
after the call; the entries keep their places, a new entry for `from` being
added at the end; and the old destinations of `from` are the leading part of
its new destination list. -/
theorem mm_map_channel_frame (ok_map ok_to : Bool) (from_ to_ : channel) (s s1 : core)
    (hwf : map_wf s) (h : mm_map_channel ok_map ok_to from_ to_ s = some (0, s1)) :
    (∀ x, x ≠ from_ → lookup s1.map x = lookup s.map x) ∧
    (s1.map.map (fun e => e.from_) = s.map.map (fun e => e.from_) ∨
      s1.map.map (fun e => e.from_) = s.map.map (fun e => e.from_) ++ [from_]) ∧
    (∀ (i : Nat) (e : channel_mapping), s.map[i]? = some e → e.from_ ≠ from_ →
      s1.map[i]? = some e) ∧
    lookup s.map from_ <+: lookup s1.map from_ ∧
    s1.fds = s.fds ∧ s1.fd = s.fd ∧ s1.event_pool0 = s.event_pool0 ∧
    s1.event_pool1 = s.event_pool1 ∧ s1.primary = s.primary := by
  rcases split_source from_ s.map with habs | ⟨pre, e, post, hmap, hpre, he⟩
  · rw [mm_map_channel_absent ok_map ok_to from_ to_ s hwf habs] at h
    cases ok_map <;> cases ok_to <;> simp at h
    subst h
    refine ⟨?_, Or.inr (by simp), ?_, ?_, rfl, rfl, rfl, rfl, rfl⟩
    · intro x hx
      exact lookup_append_other s.map ⟨from_, [to_]⟩ x (fun h => hx h.symm)
    · intro i e hi _
      show (s.map ++ [⟨from_, [to_]⟩])[i]? = some e
      have hlt : i < s.map.length := (List.getElem?_eq_some_iff.1 hi).1
      rw [List.getElem?_append_left hlt]
      exact hi
    · rw [lookup_absent s.map from_ habs]
      exact List.nil_prefix
  · rw [mm_map_channel_found ok_map ok_to from_ to_ s pre post e hwf hmap hpre he] at h
    have hl : lookup s.map from_ = e.to_ := lookup_found s.map from_ pre post e hmap hpre he
    by_cases hb : to_ ∈ e.to_
    · simp only [hb, if_true, Option.some.injEq, Prod.mk.injEq, true_and] at h
      subst h
      exact ⟨fun _ _ => rfl, Or.inl rfl, fun _ _ hi _ => hi, List.prefix_refl _,
        rfl, rfl, rfl, rfl, rfl⟩
    · cases ok_to <;> simp [hb] at h
      subst h
      refine ⟨?_, Or.inl (by simp [hmap]), ?_, ?_, rfl, rfl, rfl, rfl, rfl⟩
      · intro x hx
        show lookup (pre ++ { e with to_ := e.to_ ++ [to_] } :: post) x = lookup s.map x
        rw [hmap]
        exact lookup_replace_other pre post e _ x (by rw [he]; exact fun h => hx h.symm) rfl
      · intro i x hi hx
        show (pre ++ { e with to_ := e.to_ ++ [to_] } :: post)[i]? = some x
        rw [hmap] at hi
        by_cases hlt : i < pre.length
        · rw [List.getElem?_append_left hlt] at hi ⊢
          exact hi
        · have hge : pre.length ≤ i := by omega
          rw [List.getElem?_append_right hge] at hi ⊢
          cases hk : i - pre.length with
          | zero =>
            rw [hk] at hi
            simp only [List.getElem?_cons_zero, Option.some.injEq] at hi
            subst hi
            exact absurd he hx
          | succ k =>
            rw [hk] at hi
            simpa using hi
      · show lookup s.map from_ <+: lookup (pre ++ { e with to_ := e.to_ ++ [to_] } :: post) from_
        rw [hl, lookup_found _ from_ pre post { e with to_ := e.to_ ++ [to_] } rfl hpre he]
        exact List.prefix_append _ _

/-- Adding destination 4 to the entry of channel 1, next to an entry for channel 5. -/
theorem mm_map_channel_frame_witness :
    lookup ({ core.init with mappings := 2, map := [⟨1, [2, 4]⟩, ⟨5, [1]⟩] } : core).map 5
      = lookup ({ core.init with mappings := 2, map := [⟨1, [2]⟩, ⟨5, [1]⟩] } : core).map 5 :=
  (mm_map_channel_frame false true 1 4
    { core.init with mappings := 2, map := [⟨1, [2]⟩, ⟨5, [1]⟩] }
    { core.init with mappings := 2, map := [⟨1, [2, 4]⟩, ⟨5, [1]⟩] }
    (by decide) (by decide)).1 5 (by decide)

/-! ## The cells `mm_channel_event` writes -/

/-- The cells of a block of which the cells `n, ..., n + k - 1` are overwritten. -/
theorem cells_written {α : Type} (l ds : List α) (n : Nat) (h : n + ds.length ≤ l.length) :
    (∀ i, i < n → (l.take n ++ ds ++ l.drop (n + ds.length))[i]? = l[i]?) ∧
    (∀ j, j < ds.length → (l.take n ++ ds ++ l.drop (n + ds.length))[n + j]? = ds[j]?) ∧
    (∀ i, n + ds.length ≤ i → (l.take n ++ ds ++ l.drop (n + ds.length))[i]? = l[i]?) := by
  have hlen : (l.take n).length = n := by simp; omega
  refine ⟨?_, ?_, ?_⟩
  · intro i hi
    rw [List.append_assoc, List.getElem?_append_left (by omega), List.getElem?_take_of_lt hi]
  · intro j hj
    rw [List.append_assoc, List.getElem?_append_right (by omega), hlen,
      List.getElem?_append_left (by omega)]
    congr 1
    omega
  · intro i hi
    rw [List.getElem?_append_right (by simp; omega), List.getElem?_drop]
    congr 1
    simp
    omega

theorem getElem?_realloc {α : Type} (fill : α) (block : List α) (count i : Nat)
    (h1 : i < count) (h2 : i < block.length) :
    (realloc fill block count)[i]? = block[i]? := by
  unfold realloc
  rw [List.getElem?_append_left (by simp; omega), List.getElem?_take_of_lt h1]

theorem getElem?_replicate_lt {α : Type} (v : α) (k j : Nat) (h : j < k) :
    (List.replicate k v)[j]? = some v := by
  rw [List.getElem?_eq_getElem (by simpa using h)]
  simp

/-- Lines 177-185 on a collection with room for the destinations, in full. -/
theorem enqueue_all_eq (v : channel_value) (ds : List channel) (s : core)
    (c : event_collection) (h1 : c.n + ds.length ≤ c.channel.length)
    (h2 : c.n + ds.length ≤ c.value.length) :
    enqueue_all v ds s c = some (0, s.set_pool s.primary
      { c with
        channel := c.channel.take c.n ++ ds ++ c.channel.drop (c.n + ds.length),
        value := c.value.take c.n ++ List.replicate ds.length v
          ++ c.value.drop (c.n + ds.length),
        n := c.n + ds.length }) := by
  have hspec := enqueue_spec v ds 0 c (by omega) (by omega)
  simp only [Nat.add_zero] at hspec
  simp only [enqueue_all, hspec]

/-- The cells of a collection after lines 177-185: the cells `n, ..., n + k - 1`
hold the destinations and the value, every other cell is as before. -/
theorem enqueue_all_cells (v : channel_value) (ds : List channel) (s : core)
    (c : event_collection) (h1 : c.n + ds.length ≤ c.channel.length)
    (h2 : c.n + ds.length ≤ c.value.length) :
    ∃ c1, enqueue_all v ds s c = some (0, s.set_pool s.primary c1) ∧
      c1.n = c.n + ds.length ∧ c1.alloc = c.alloc ∧
      c1.channel.length = c.channel.length ∧ c1.value.length = c.value.length ∧
      (∀ j, j < ds.length →
        c1.channel[c.n + j]? = ds[j]? ∧ c1.value[c.n + j]? = some v) ∧
      (∀ i, (i < c.n ∨ c.n + ds.length ≤ i) →
        c1.channel[i]? = c.channel[i]? ∧ c1.value[i]? = c.value[i]?) := by
  have hc := cells_written c.channel ds c.n h1
  have hv := cells_written c.value (List.replicate ds.length v) c.n (by simpa using h2)
  simp only [List.length_replicate] at hv
  refine ⟨_, enqueue_all_eq v ds s c h1 h2, rfl, rfl, ?_, ?_, ?_, ?_⟩
  · simp; omega
  · simp; omega
  · intro j hj
    exact ⟨hc.2.1 j hj, by
      show (c.value.take c.n ++ List.replicate ds.length v
        ++ c.value.drop (c.n + ds.length))[c.n + j]? = some v
      rw [hv.2.1 j hj, getElem?_replicate_lt v _ j hj]⟩
  · intro i hi
    rcases hi with hi | hi
    · exact ⟨hc.1 i hi, hv.1 i hi⟩
    · exact ⟨hc.2.2 i hi, hv.2.2 i hi⟩

/-- C19: capacity invariant and in-bounds writes.  For a primary collection
with `n <= alloc` (and `alloc` cells in both arrays) and a channel whose entry
has `k` destinations, a call of `mm_channel_event` that returns 0 leaves
`n + k` as the count, again with `n <= alloc` and `alloc` cells in both arrays,
and a capacity that is not smaller than before; the cells `n, ..., n + k - 1`,
each below the new capacity, hold the destinations and the value, and every
other cell below the old capacity is as before. -/
theorem mm_channel_event_in_bounds (ok_channel ok_value : Bool) (c : channel)
    (v : channel_value) (s s1 : core) (e : channel_mapping)
    (hwf : map_wf s) (hp : collection_wf (s.pool s.primary))
    (he : s.map.find? (fun x => decide (x.from_ = c)) = some e)
    (h : mm_channel_event ok_channel ok_value c v s = some (0, s1)) :
    (s1.pool s1.primary).n = (s.pool s.primary).n + e.to_.length ∧
    collection_wf (s1.pool s1.primary) ∧
    (s.pool s.primary).alloc ≤ (s1.pool s1.primary).alloc ∧
    (∀ j, j < e.to_.length →
      (s.pool s.primary).n + j < (s1.pool s1.primary).alloc ∧
      (s1.pool s1.primary).channel[(s.pool s.primary).n + j]? = e.to_[j]? ∧
      (s1.pool s1.primary).value[(s.pool s.primary).n + j]? = some v) ∧
    (∀ i, i < (s.pool s.primary).alloc →
      (i < (s.pool s.primary).n ∨ (s.pool s.primary).n + e.to_.length ≤ i) →
      (s1.pool s1.primary).channel[i]? = (s.pool s.primary).channel[i]? ∧
      (s1.pool s1.primary).value[i]? = (s.pool s.primary).value[i]?) := by
  rcases split_of_find c s.map e he with ⟨pre, post, hmap, hpre, hec⟩
  have hfind := find_source_found c s pre post e hwf hmap hpre hec
  have hne : pre.length ≠ s.mappings := by
    unfold map_wf at hwf; rw [hwf, hmap]; simp
  have hget : s.map[pre.length]? = some e := by rw [hmap]; exact getElem?_split pre post e
  have hp1 := hp
  unfold collection_wf at hp1
  simp only [mm_channel_event, hfind, hne, if_false, hget] at h
  by_cases hgrow : (s.pool s.primary).n + e.to_.length ≥ (s.pool s.primary).alloc
  · simp only [hgrow, if_true] at h
    by_cases hfail : ok_channel = false ∨ ok_value = false
    · simp [hfail] at h
    · have hoks : ok_channel = true ∧ ok_value = true := by
        cases ok_channel <;> cases ok_value <;> simp_all
      simp only [hoks.1, hoks.2, Bool.true_eq_false, or_self, if_false, if_true] at h
      rcases enqueue_all_cells v e.to_ s
          { (s.pool s.primary) with
            alloc := (s.pool s.primary).alloc + e.to_.length,
            channel := realloc 0 (s.pool s.primary).channel
              ((s.pool s.primary).alloc + e.to_.length),
            value := realloc 0 (s.pool s.primary).value
              ((s.pool s.primary).alloc + e.to_.length) }
          (by simp only [length_realloc]; omega) (by simp only [length_realloc]; omega) with
        ⟨c1, hc1, hn, ha, hl1, hl2, hw, hr⟩
      rw [hc1] at h
      simp only [Option.some.injEq, Prod.mk.injEq, true_and] at h
      subst h
      rw [(set_pool_frame s s.primary c1).1, pool_set_pool]
      simp only [length_realloc] at hl1 hl2
      simp only at hn ha hw hr
      refine ⟨hn, ?_, by omega, ?_, ?_⟩
      · unfold collection_wf; omega
      · intro j hj
        exact ⟨by omega, hw j hj⟩
      · intro i hi hout
        have := hr i hout
        rw [getElem?_realloc _ _ _ _ (by omega) (by omega),
          getElem?_realloc _ _ _ _ (by omega) (by omega)] at this
        exact this
  · simp only [hgrow, if_false] at h
    rcases enqueue_all_cells v e.to_ s (s.pool s.primary) (by omega) (by omega) with
      ⟨c1, hc1, hn, ha, hl1, hl2, hw, hr⟩
    rw [hc1] at h
    simp only [Option.some.injEq, Prod.mk.injEq, true_and] at h
    subst h
    rw [(set_pool_frame s s.primary c1).1, pool_set_pool]
    refine ⟨hn, ?_, by omega, ?_, ?_⟩
    · unfold collection_wf; omega
    · intro j hj
      exact ⟨by omega, hw j hj⟩
    · intro i _ hout
      exact hr i hout

/-- An event on channel 1, with one destination, when all 4 cells are in use. -/
theorem mm_channel_event_in_bounds_witness :
    collection_wf (({ full_collection 4 with
        event_pool0 := ⟨5, 5, [9, 9, 9, 9, 2], [0, 0, 0, 0, 7]⟩ } : core).pool 0) :=
  (mm_channel_event_in_bounds true true 1 7 (full_collection 4)
    { full_collection 4 with event_pool0 := ⟨5, 5, [9, 9, 9, 9, 2], [0, 0, 0, 0, 7]⟩ }
    ⟨1, [2]⟩ (by decide) (by decide) (by decide) (by decide)).2.1

/-! ## Ping-pong isolation -/

/-- Whatever `mm_channel_event` returns, the state it leaves differs from the
old one at most in the primary collection. -/
theorem mm_channel_event_shape (ok_channel ok_value : Bool) (c : channel) (v : channel_value)
    (t t1 : core) (rv : Int) (h : mm_channel_event ok_channel ok_value c v t = some (rv, t1)) :
    ∃ c1, t1 = t.set_pool t.primary c1 := by
  unfold mm_channel_event at h
  cases hf : find_source t c with
  | none => rw [hf] at h; simp at h
  | some u =>
    rw [hf] at h
    simp only at h
    by_cases hu : u = t.mappings
    · simp only [hu, if_true, Option.some.injEq, Prod.mk.injEq] at h
      exact ⟨t.pool t.primary, by rw [set_pool_pool_self]; exact h.2.symm⟩
    · simp only [hu, if_false] at h
      cases hg : t.map[u]? with
      | none => rw [hg] at h; simp at h
      | some e =>
        rw [hg] at h
        simp only at h
        have henq : ∀ p, enqueue_all v e.to_ t p = some (rv, t1) →
            ∃ c1, t1 = t.set_pool t.primary c1 := by
          intro p hp
          unfold enqueue_all at hp
          cases he : enqueue v e.to_ 0 p with
          | none => rw [he] at hp; simp at hp
          | some c1 =>
            rw [he] at hp
            simp only [Option.some.injEq, Prod.mk.injEq] at hp
            exact ⟨_, hp.2.symm⟩
        by_cases hgrow : (t.pool t.primary).n + e.to_.length ≥ (t.pool t.primary).alloc
        · simp only [hgrow, if_true] at h
          by_cases hfail : ok_channel = false ∨ ok_value = false
          · simp only [hfail, if_true, Option.some.injEq, Prod.mk.injEq] at h
            exact ⟨_, h.2.symm⟩
          · simp only [hfail, if_false] at h
            exact henq _ h
        · simp only [hgrow, if_false] at h
          exact henq _ h

/-- A call of `mm_channel_event` moves neither `primary` nor the mapping table
and leaves every collection other than the primary one as it is. -/
theorem mm_channel_event_frame (ok_channel ok_value : Bool) (c : channel) (v : channel_value)
    (t t1 : core) (rv : Int) (h : mm_channel_event ok_channel ok_value c v t = some (rv, t1)) :
    t1.primary = t.primary ∧ t1.map = t.map ∧ t1.mappings = t.mappings ∧
    ∀ i, i ≠ t.primary → t1.pool i = t.pool i := by
  rcases mm_channel_event_shape ok_channel ok_value c v t t1 rv h with ⟨c1, rfl⟩
  have hf := set_pool_frame t t.primary c1
  exact ⟨hf.1, hf.2.1, hf.2.2.1, fun i hi => pool_set_pool_other _ _ _ _ hi⟩

/-- A sequence of calls of `mm_channel_event` moves neither `primary` nor the
mapping table and leaves every collection other than the primary one as it is. -/
theorem raise_events_frame (ok : Nat → Bool × Bool) :
    ∀ (evs : batch) (i : Nat) (t t1 : core) (rv : Int),
      raise_events ok evs i t = some (rv, t1) →
      t1.primary = t.primary ∧ t1.map = t.map ∧ t1.mappings = t.mappings ∧
      ∀ j, j ≠ t.primary → t1.pool j = t.pool j := by
  intro evs
  induction evs with
  | nil =>
    intro i t t1 rv h
    simp only [raise_events, Option.some.injEq, Prod.mk.injEq] at h
    rw [← h.2]
    exact ⟨rfl, rfl, rfl, fun _ _ => rfl⟩
  | cons ev evs ih =>
    intro i t t1 rv h
    obtain ⟨c, v⟩ := ev
    simp only [raise_events] at h
    cases hc : mm_channel_event (ok i).1 (ok i).2 c v t with
    | none => rw [hc] at h; simp at h
    | some r =>
      obtain ⟨rv1, t2⟩ := r
      rw [hc] at h
      simp only at h
      have hf := mm_channel_event_frame _ _ c v t t2 rv1 hc
      by_cases hrv : rv1 = 0
      · simp only [hrv, ne_eq, not_true_eq_false, if_false] at h
        rcases ih (i + 1) t2 t1 rv h with ⟨h1, h2, h3, h4⟩
        refine ⟨h1.trans hf.1, h2.trans hf.2.1, h3.trans hf.2.2.1, ?_⟩
        intro j hj
        rw [h4 j (by rw [hf.1]; exact hj), hf.2.2.2 j hj]
      · simp only [hrv, ne_eq, not_false_eq_true, if_true, Option.some.injEq,
          Prod.mk.injEq] at h
        rw [← h.2]
        exact hf

/-- A sequence of calls of `mm_channel_event` on a well-formed state: either
all return 0 and the destinations of the raised events are appended, in order,
to the pending events of the primary collection, or one returns 1. -/
theorem raise_events_spec (ok : Nat → Bool × Bool) :
    ∀ (evs : batch) (i : Nat) (t : core), map_wf t → collection_wf (t.pool t.primary) →
      (∃ t1, raise_events ok evs i t = some (0, t1) ∧
        collection_wf (t1.pool t1.primary) ∧
        events (t1.pool t1.primary) = events (t.pool t.primary) ++
          evs.flatMap (fun ev => (lookup t.map ev.1).map (fun d => (d, ev.2)))) ∨
      (∃ t1, raise_events ok evs i t = some (1, t1)) := by
  intro evs
  induction evs with
  | nil =>
    intro i t _ hp
    left
    exact ⟨t, rfl, hp, by simp⟩
  | cons ev evs ih =>
    intro i t hwf hp
    obtain ⟨c, v⟩ := ev
    simp only [raise_events]
    rcases mm_channel_event_step (ok i).1 (ok i).2 c v t hwf hp with
      ⟨c1, hr, hev, hwf1⟩ | ⟨_, ch, va, hr⟩
    · rw [hr]
      simp only [ne_eq, not_true_eq_false, if_false]
      have hf := set_pool_frame t t.primary c1
      have hprim : (t.set_pool t.primary c1).pool (t.set_pool t.primary c1).primary = c1 := by
        rw [hf.1, pool_set_pool]
      rcases ih (i + 1) (t.set_pool t.primary c1)
          (by unfold map_wf at *; rw [hf.2.1, hf.2.2.1]; exact hwf)
          (by rw [hprim]; exact hwf1) with
        ⟨t1, h1, h2, h3⟩ | ⟨t1, h1⟩
      · left
        refine ⟨t1, h1, h2, ?_⟩
        rw [h3, hprim, hf.2.1, hev]
        simp
      · right
        exact ⟨t1, h1⟩
    · right
      rw [hr]
      exact ⟨t.set_pool t.primary ⟨0, 0, ch, va⟩, by simp⟩

/-- C18: ping-pong isolation.  (1) A call of `mm_channel_event` leaves `primary`
and every collection other than the primary one as they are, whatever it
returns.  (2) In a drain round `backends_notify` is handed the arrays of the
collection that was primary before the swap, in a state whose primary
collection is the other one.  (3) With a `backends_notify` that acts on the
state by raising events, when the standby collection holds no event at the
start of a round: the batch handed over is the pending events of the old
primary collection; if a `realloc` fails the loop is left with that collection
as it was; otherwise the next round starts with that collection unchanged but
for its count, which is 0, as the standby one, and with exactly the
destinations of the events raised during the call pending. -/
theorem ping_pong_isolation :
    (∀ (ok_channel ok_value : Bool) (c : channel) (v : channel_value) (t t1 : core) (rv : Int)
        (i : Fin 2), i ≠ t.primary →
      mm_channel_event ok_channel ok_value c v t = some (rv, t1) →
      t1.pool i = t.pool i ∧ t1.primary = t.primary) ∧
    (∀ (notify : notify_fn) (fuel call : Nat) (s : core) (trace : List batch),
      (s.pool s.primary).n ≠ 0 →
      s.standby ≠ s.primary ∧
      drain notify (fuel + 1) call s trace =
        match notify call s.primary (s.pool s.primary).n { s with primary := s.standby } with
        | none =>
          (.undefined, { s with primary := s.standby }, trace ++ [events (s.pool s.primary)])
        | some (rv, s2) =>
          if rv ≠ 0 then (.failed, s2, trace ++ [events (s.pool s.primary)])
          else
            drain notify fuel (call + 1)
              (s2.set_pool s.primary { s2.pool s.primary with n := 0 })
              (trace ++ [events (s.pool s.primary)])) ∧
    (∀ (notify : notify_fn) (fuel call : Nat) (s : core) (trace : List batch),
      (∀ call secondary n t, ∃ ok evs, notify call secondary n t = raise_events ok evs 0 t) →
      map_wf s → collection_wf (s.pool s.standby) → (s.pool s.standby).n = 0 →
      (s.pool s.primary).n ≠ 0 →
      ∃ ok evs,
        notify call s.primary (s.pool s.primary).n { s with primary := s.standby }
          = raise_events ok evs 0 { s with primary := s.standby } ∧
        ((∃ s3, drain notify (fuel + 1) call s trace
            = drain notify fuel (call + 1) s3 (trace ++ [events (s.pool s.primary)]) ∧
          s3.primary = s.standby ∧ s3.standby = s.primary ∧
          s3.pool s3.standby = { s.pool s.primary with n := 0 } ∧
          events (s3.pool s3.primary)
            = evs.flatMap (fun ev => (lookup s.map ev.1).map (fun d => (d, ev.2)))) ∨
        (∃ t1, drain notify (fuel + 1) call s trace
            = (.failed, t1, trace ++ [events (s.pool s.primary)]) ∧
          t1.pool s.primary = s.pool s.primary))) := by
  refine ⟨?_, ?_, ?_⟩
  · intro ok_channel ok_value c v t t1 rv i hi h
    have hf := mm_channel_event_frame ok_channel ok_value c v t t1 rv h
    exact ⟨hf.2.2.2 i hi, hf.1⟩
  · intro notify fuel call s trace hn
    exact ⟨standby_ne_primary s, drain_round notify fuel call s trace hn⟩
  · intro notify fuel call s trace hnotify hwf hs hs0 hn
    rcases hnotify call s.primary (s.pool s.primary).n { s with primary := s.standby } with
      ⟨ok, evs, hcall⟩
    refine ⟨ok, evs, hcall, ?_⟩
    have hne : s.primary ≠ ({ s with primary := s.standby } : core).primary :=
      fun h => standby_ne_primary s h.symm
    rw [drain_round _ _ _ _ _ hn, hcall]
    rcases raise_events_spec ok evs 0 { s with primary := s.standby } hwf hs with
      ⟨t1, h1, h2, h3⟩ | ⟨t1, h1⟩
    · left
      have hfr := raise_events_frame ok evs 0 _ t1 0 h1
      have hdel : t1.pool s.primary = s.pool s.primary := hfr.2.2.2 s.primary hne
      have hf := set_pool_frame t1 s.primary { t1.pool s.primary with n := 0 }
      have hprim : (t1.set_pool s.primary { t1.pool s.primary with n := 0 }).primary
          = s.standby := by rw [hf.1, hfr.1]
      have hstand : (t1.set_pool s.primary { t1.pool s.primary with n := 0 }).standby
          = s.primary := standby_of_primary s _ hprim
      refine ⟨t1.set_pool s.primary { t1.pool s.primary with n := 0 }, ?_, hprim, hstand, ?_, ?_⟩
      · rw [h1]; simp
      · rw [hstand, pool_set_pool, hdel]
      · rw [hprim, pool_set_pool_other _ _ _ _ (standby_ne_primary s)]
        have h0 : events (({ s with primary := s.standby } : core).pool s.standby) = [] :=
          events_of_n_zero _ hs0
        have h4 : t1.pool s.standby = t1.pool t1.primary := by rw [hfr.1]
        rw [h4, h3]
        show events (({ s with primary := s.standby } : core).pool s.standby) ++ _ = _
        rw [h0]
        rfl
    · right
      have hfr := raise_events_frame ok evs 0 _ t1 1 h1
      refine ⟨t1, ?_, hfr.2.2.2 s.primary hne⟩
      rw [h1]; simp

/-- A round that delivers the event on channel 1 of `cascade_example` to a
`backends_notify` that raises it again. -/
theorem ping_pong_isolation_witness :
    ∃ ok evs,
      raising_notify 0 cascade_example.primary (cascade_example.pool cascade_example.primary).n
          { cascade_example with primary := cascade_example.standby }
        = raise_events ok evs 0 { cascade_example with primary := cascade_example.standby } ∧
      ((∃ s3, drain raising_notify (0 + 1) 0 cascade_example []
            = drain raising_notify 0 (0 + 1) s3
                ([] ++ [events (cascade_example.pool cascade_example.primary)]) ∧
          s3.primary = cascade_example.standby ∧ s3.standby = cascade_example.primary ∧
          s3.pool s3.standby = { cascade_example.pool cascade_example.primary with n := 0 } ∧
          events (s3.pool s3.primary)
            = evs.flatMap (fun ev => (lookup cascade_example.map ev.1).map (fun d => (d, ev.2)))) ∨
        (∃ t1, drain raising_notify (0 + 1) 0 cascade_example []
            = (.failed, t1, [] ++ [events (cascade_example.pool cascade_example.primary)]) ∧
          t1.pool cascade_example.primary = cascade_example.pool cascade_example.primary)) :=
  ping_pong_isolation.2.2 raising_notify 0 0 cascade_example []
    (fun _ _ _ _ => ⟨fun _ => (true, true), [(1, 5)], rfl⟩)
    (by decide) (by decide) (by decide) (by decide)

/-! ## Shutdown -/

theorem raise_events_writes_primary_only (ok : Nat → Bool × Bool) (evs : batch) :
    writes_primary_only (fun s => raise_events ok evs 0 s) := by
  intro s rv s1 h
  have hf := raise_events_frame ok evs 0 s s1 rv h
  exact ⟨hf.1, hf.2.2.2 s.standby (standby_ne_primary s)⟩

theorem both_counts_zero (s : core) (h1 : (s.pool s.primary).n = 0)
    (h2 : (s.pool s.standby).n = 0) : s.event_pool0.n = 0 ∧ s.event_pool1.n = 0 := by
  unfold core.standby at h2
  unfold core.pool at h1 h2
  by_cases h : s.primary = 0
  · simp [h] at h1 h2; exact ⟨h1, h2⟩
  · simp [h] at h1 h2; exact ⟨h2, h1⟩

/-- When the drain loop ends normally, no event is pending in either collection. -/
theorem drain_quiescent_counts (notify : notify_fn)
    (hnotify : ∀ call secondary n, writes_primary_only (notify call secondary n)) :
    ∀ (fuel call : Nat) (s s2 : core) (trace tr : List batch),
      (s.pool s.standby).n = 0 →
      drain notify fuel call s trace = (.quiescent, s2, tr) →
      (s2.pool s2.primary).n = 0 ∧ (s2.pool s2.standby).n = 0 := by
  intro fuel
  induction fuel with
  | zero =>
    intro call s s2 trace tr hs0 h
    simp only [drain] at h
    by_cases hn : (s.pool s.primary).n = 0
    · simp only [hn, if_true, Prod.mk.injEq, true_and] at h
      rw [← h.1]; exact ⟨hn, hs0⟩
    · simp [hn] at h
  | succ fuel ih =>
    intro call s s2 trace tr hs0 h
    by_cases hn : (s.pool s.primary).n = 0
    · rw [drain_done _ _ _ _ _ hn] at h
      simp only [Prod.mk.injEq, true_and] at h
      rw [← h.1]; exact ⟨hn, hs0⟩
    · rw [drain_round _ _ _ _ _ hn] at h
      cases hc : notify call s.primary (s.pool s.primary).n { s with primary := s.standby } with
      | none => rw [hc] at h; simp at h
      | some r =>
        obtain ⟨rv, t2⟩ := r
        rw [hc] at h
        simp only at h
        by_cases hrv : rv = 0
        · simp only [hrv, ne_eq, not_true_eq_false, if_false] at h
          have hfr := (hnotify call s.primary (s.pool s.primary).n _ rv t2 hc).1
          have hf := set_pool_frame t2 s.primary { t2.pool s.primary with n := 0 }
          have hprim : (t2.set_pool s.primary { t2.pool s.primary with n := 0 }).primary
              = s.standby := by rw [hf.1, hfr]
          have hstand := standby_of_primary s _ hprim
          exact ih _ _ _ _ _ (by rw [hstand, pool_set_pool]) h
        · simp [hrv] at h

/-- C17: shutdown never interrupts a drain.  The shutdown flag is read only at
the test of the loop condition of line 261, which the model numbers; with
collaborators that reach the event collections only through
`mm_channel_event`, in every run of the event loop that starts with no event
pending and stops because it found the flag set, the flag was clear at every
earlier test, set at the last one, and no event is pending in either
collection: every cycle of input handling and drain that was begun has been
completed. -/
theorem shutdown_after_complete_cycle (env : collaborators) (drain_fuel : Nat)
    (hhandle : ∀ k, writes_primary_only (env.backends_handle k))
    (hnotify : ∀ k call secondary n, writes_primary_only (env.backends_notify k call secondary n)) :
    ∀ (fuel k : Nat) (s s1 : core),
      s.event_pool0.n = 0 → s.event_pool1.n = 0 →
      event_loop env drain_fuel fuel k s = (.shutdown, s1) →
      s1.event_pool0.n = 0 ∧ s1.event_pool1.n = 0 ∧
      ∃ j, k ≤ j ∧ env.shutdown_requested j = true ∧
        ∀ i, k ≤ i → i < j → env.shutdown_requested i = false := by
  intro fuel
  induction fuel with
  | zero =>
    intro k s s1 h0 h1 h
    simp only [event_loop] at h
    by_cases hsd : env.shutdown_requested k = true
    · simp only [hsd, if_true, Prod.mk.injEq, true_and] at h
      rw [← h]
      exact ⟨h0, h1, k, Nat.le_refl k, hsd, fun i hi hlt => by omega⟩
    · simp [hsd] at h
  | succ fuel ih =>
    intro k s s1 h0 h1 h
    simp only [event_loop] at h
    by_cases hsd : env.shutdown_requested k = true
    · simp only [hsd, if_true, Prod.mk.injEq, true_and] at h
      rw [← h]
      exact ⟨h0, h1, k, Nat.le_refl k, hsd, fun i hi hlt => by omega⟩
    · simp only [hsd, if_false] at h
      by_cases hsel : env.select k < 0
      · simp [hsel] at h
      · simp only [hsel, if_false] at h
        cases hh : env.backends_handle k s with
        | none => rw [hh] at h; simp at h
        | some r =>
          obtain ⟨rv, t1⟩ := r
          rw [hh] at h
          simp only at h
          by_cases hrv : rv = 0
          · simp only [hrv, ne_eq, not_true_eq_false, if_false] at h
            have hfr := hhandle k s rv t1 hh
            have hst : (t1.pool t1.standby).n = 0 := by
              have : t1.standby = s.standby := by unfold core.standby; rw [hfr.1]
              rw [this, hfr.2]
              unfold core.standby core.pool
              by_cases hp : s.primary = 0 <;> simp [hp, h0, h1]
            cases hd : drain (env.backends_notify k) drain_fuel 0 t1 [] with
            | mk x rest =>
              obtain ⟨t2, tr⟩ := rest
              rw [hd] at h
              cases x
              · have hz := drain_quiescent_counts (env.backends_notify k) (hnotify k)
                  drain_fuel 0 t1 t2 [] tr hst hd
                have hb := both_counts_zero t2 hz.1 hz.2
                rcases ih (k + 1) t2 s1 hb.1 hb.2 h with ⟨r0, r1, j, hj, hjs, hjb⟩
                refine ⟨r0, r1, j, by omega, hjs, ?_⟩
                intro i hi hlt
                by_cases hik : i = k
                · subst hik; simpa using hsd
                · exact hjb i (by omega) hlt
              · simp at h
              · simp at h
              · simp at h
          · simp [hrv] at h

/-- The run `shutdown_run` after its start-up: an event is raised and drained
in the first iteration, and the flag is found set at the second test. -/
theorem shutdown_after_complete_cycle_witness :
    ({ core.init with mappings := 1, map := [⟨1, [2]⟩], primary := 1,
                      event_pool0 := ⟨1, 0, [2], [5]⟩ } : core).event_pool0.n = 0 ∧
    ({ core.init with mappings := 1, map := [⟨1, [2]⟩], primary := 1,
                      event_pool0 := ⟨1, 0, [2], [5]⟩ } : core).event_pool1.n = 0 ∧
    ∃ j, 0 ≤ j ∧ shutdown_run.shutdown_requested j = true ∧
      ∀ i, 0 ≤ i → i < j → shutdown_run.shutdown_requested i = false :=
  shutdown_after_complete_cycle shutdown_run 3
    (fun _ => raise_events_writes_primary_only _ _)
    (fun _ _ _ _ => raise_events_writes_primary_only _ _) 2 0
    { core.init with mappings := 1, map := [⟨1, [2]⟩] }
    { core.init with mappings := 1, map := [⟨1, [2]⟩], primary := 1,
                     event_pool0 := ⟨1, 0, [2], [5]⟩ }
    rfl rfl (by decide)

end Midimonster
